import Mathlib

/-!
Verification of the CNAB bundle descriptor data model and its
(de)serialization boundary (`src/cnab.rs`).

The model is shallowly embedded:
* `Json` is the value tree of the external JSON collaborator
  (`serde_json::Value`); numbers are modelled as unbounded integers,
  which covers every numeric field of the descriptor model (the only
  typed numeric field is `size : Option<i64>`); floating point JSON
  numbers do not occur in any typed field and are outside the model.
* each Rust struct becomes a Lean structure with the source field
  names; `BTreeMap<String, T>` becomes an association list whose
  sortedness (the `BTreeMap` representation invariant) is carried as a
  well-formedness hypothesis; `PathBuf` becomes `String`.
* the serde derive machinery becomes explicit `toJson` / `ofJson`
  functions: serialization emits fields in declaration order (the
  derive behaviour), deserialization looks fields up by wire key,
  treats a missing `Option` field or an explicit `null` as `None`,
  substitutes `false` for a missing `#[serde(default)] bool`, and
  ignores unknown keys (no `deny_unknown_fields` in the source).
  Field extraction is performed in declaration order; the real derive
  walks the document in input order, which only affects *which* error
  is reported when several fields are simultaneously invalid.
* `semver::Version` becomes `Version` with explicit parse and print
  functions following the crate: dotted numeric core without leading
  zeros and within `u64` range, optional `-prerelease` and `+build`
  made of nonempty dot-separated alphanumeric-or-hyphen identifiers,
  numeric prerelease identifiers free of leading zeros.
* the JSON text layer (the out-of-scope collaborator per the spec) is
  a total fuel-based parser `parseVal`; the fuel mirrors the recursion
  limit of the real parser and is large enough for every input the
  theorems touch.
-/

namespace Cnab

/-- JSON value tree, the interchange type of the JSON collaborator. -/
inductive Json where
  | null : Json
  | bool (b : Bool) : Json
  | num (n : Int) : Json
  | str (s : String) : Json
  | arr (elems : List Json) : Json
  | obj (fields : List (String × Json)) : Json

/-- Association-list lookup over a JSON object, first match wins. -/
def jsonLookup (key : String) : List (String × Json) → Option Json
  | [] => none
  | (k, v) :: rest => if k = key then some v else jsonLookup key rest

/-- Deserialization errors of the boundary, mirroring what
`serde_json::Error` can report while deserializing a descriptor:
text-level syntax errors, a missing required field, a value of the
wrong JSON type, and the semver failure raised through
`serde::de::Error::custom` by the `semver` crate (the payload records
the offending version string). -/
inductive DeErr where
  | jsonText (msg : String) : DeErr
  | missingField (name : String) : DeErr
  | invalidType (expected : String) : DeErr
  | semverErr (input : String) : DeErr
deriving DecidableEq

/-- Decode a JSON string into a Rust `String`. -/
def asString : Json → Except DeErr String
  | .str s => .ok s
  | _ => .error (.invalidType "string")

/-- Decode a JSON boolean into a Rust `bool`. -/
def asBool : Json → Except DeErr Bool
  | .bool b => .ok b
  | _ => .error (.invalidType "bool")

def i64Min : Int := -(2 ^ 63)

def i64Max : Int := 2 ^ 63 - 1

/-- Decode a JSON number into a Rust `i64`: any integer within the
signed 64-bit range is accepted, negative values included. -/
def asI64 : Json → Except DeErr Int
  | .num n => if i64Min ≤ n ∧ n ≤ i64Max then .ok n else .error (.invalidType "i64")
  | _ => .error (.invalidType "i64")

/-- Elementwise decoding of a sequence: first error wins. -/
def mapMExcept (conv : α → Except DeErr β) : List α → Except DeErr (List β)
  | [] => .ok []
  | x :: rest => do
    let y ← conv x
    let ys ← mapMExcept conv rest
    pure (y :: ys)

/-- Decode a JSON array elementwise into a `Vec<T>`. -/
def asList (conv : Json → Except DeErr α) : Json → Except DeErr (List α)
  | .arr elems => mapMExcept conv elems
  | _ => .error (.invalidType "sequence")

/-- `BTreeMap::insert` on the sorted association-list representation:
place the pair at its key position, replacing an equal key. -/
def insertSorted (k : String) (v : α) : List (String × α) → List (String × α)
  | [] => [(k, v)]
  | (k2, v2) :: rest =>
    if k < k2 then (k, v) :: (k2, v2) :: rest
    else if k = k2 then (k, v) :: rest
    else (k2, v2) :: insertSorted k v rest

/-- Collect decoded object entries into a `BTreeMap`, inserting in
document order (a later duplicate key overwrites an earlier one). -/
def buildMap (pairs : List (String × α)) : List (String × α) :=
  pairs.foldl (fun m kv => insertSorted kv.1 kv.2 m) []

/-- Decode a JSON object into a `BTreeMap<String, T>`. -/
def asMap (conv : Json → Except DeErr α) : Json → Except DeErr (List (String × α))
  | .obj fields =>
    (mapMExcept (fun kv => (conv kv.2).map (fun v => (kv.1, v))) fields).map buildMap
  | _ => .error (.invalidType "map")

/-- A present `Option<T>` value: `null` is `None`, anything else is
`Some` of the decoded value. -/
def optDecode (conv : Json → Except DeErr α) : Json → Except DeErr (Option α)
  | .null => .ok none
  | j => (conv j).map some

/-- Deserialize an `Option<T>` struct field: a missing key is `None`
(the serde behaviour for `Option` fields). -/
def optField (fields : List (String × Json)) (key : String)
    (conv : Json → Except DeErr α) : Except DeErr (Option α) :=
  match jsonLookup key fields with
  | none => .ok none
  | some j => optDecode conv j

/-- Deserialize a required struct field: a missing key is an error. -/
def reqField (fields : List (String × Json)) (key : String)
    (conv : Json → Except DeErr α) : Except DeErr α :=
  match jsonLookup key fields with
  | none => .error (.missingField key)
  | some j => conv j

/-- Deserialize a `#[serde(default)] bool` field: a missing key is
`false`; a present key must hold a JSON boolean (`null` included is a
type error, since the default only applies to missing fields). -/
def defBoolField (fields : List (String × Json)) (key : String) : Except DeErr Bool :=
  match jsonLookup key fields with
  | none => .ok false
  | some j => asBool j

/-- Serialize an `Option<T>` field: the derive writes `None` as
`null` (there is no `skip_serializing_if` in the source). -/
def optJson (f : α → Json) : Option α → Json
  | none => Json.null
  | some x => f x

/-- Serialize a `BTreeMap<String, T>`: entries in key order, which is
the list order under the sortedness invariant. -/
def mapToJson (f : α → Json) (m : List (String × α)) : Json :=
  Json.obj (m.map (fun kv => (kv.1, f kv.2)))

def strListToJson (l : List String) : Json :=
  Json.arr (l.map Json.str)

def asStringList : Json → Except DeErr (List String) :=
  asList asString

/-! ## The semver collaborator

`semver::Version` as stored in `Bundle.version`: a numeric
major/minor/patch core plus the raw prerelease and build strings
(empty string meaning absent, as in the crate). -/

structure Version where
  major : Nat
  minor : Nat
  patch : Nat
  pre : String
  build : String
deriving DecidableEq

/-- Decimal digit to character; digits are always below ten here. -/
def digitChar : Nat → Char
  | 0 => '0' | 1 => '1' | 2 => '2' | 3 => '3' | 4 => '4'
  | 5 => '5' | 6 => '6' | 7 => '7' | 8 => '8' | 9 => '9'
  | _ => '*'

/-- Decimal rendering of a `u64` component. -/
def natChars (n : Nat) : List Char :=
  if n = 0 then ['0'] else ((Nat.digits 10 n).map digitChar).reverse

/-- Numeric value of a run of decimal digit characters. -/
def digitsVal (cs : List Char) : Nat :=
  cs.foldl (fun a c => 10 * a + (c.toNat - 48)) 0

def isDigitChar (c : Char) : Bool := c.isDigit

/-- Characters legal inside prerelease and build identifiers. -/
def isIdentChar (c : Char) : Bool := c.isAlphanum || c = '-'

/-- Split a character list on dots, keeping empty groups. -/
def splitOnDot : List Char → List (List Char)
  | [] => [[]]
  | c :: rest =>
    if c = '.' then [] :: splitOnDot rest
    else
      match splitOnDot rest with
      | [] => [[c]]
      | g :: gs => (c :: g) :: gs

/-- A legal prerelease identifier: nonempty, alphanumeric or hyphen,
and a fully numeric identifier must not carry a leading zero. -/
def validIdent (cs : List Char) : Bool :=
  !cs.isEmpty && cs.all isIdentChar &&
    !(cs.all isDigitChar && cs.length != 1 && cs.head? == some '0')

/-- A legal prerelease string: dot-separated legal identifiers. -/
def validPre (s : String) : Bool :=
  (splitOnDot s.data).all validIdent

/-- A legal build identifier: nonempty, alphanumeric or hyphen
(leading zeros are allowed in build metadata). -/
def validBuildIdent (cs : List Char) : Bool :=
  !cs.isEmpty && cs.all isIdentChar

/-- A legal build string: dot-separated legal identifiers. -/
def validBuild (s : String) : Bool :=
  (splitOnDot s.data).all validBuildIdent

def u64Bound : Nat := 2 ^ 64

/-- Parse one numeric component: a nonempty digit run without a
leading zero whose value fits in `u64`; returns the remainder. -/
def parseNumPart (cs : List Char) : Option (Nat × List Char) :=
  if (cs.takeWhile isDigitChar).isEmpty then none
  else if (cs.takeWhile isDigitChar).length != 1
      && (cs.takeWhile isDigitChar).head? == some '0' then none
  else if digitsVal (cs.takeWhile isDigitChar) < u64Bound then
    some (digitsVal (cs.takeWhile isDigitChar), cs.dropWhile isDigitChar)
  else none

def expectDot : List Char → Option (List Char)
  | '.' :: rest => some rest
  | _ => none

/-- Parse the optional `-prerelease` and `+build` tail. -/
def parseTail (major minor patch : Nat) : List Char → Option Version
  | [] => some ⟨major, minor, patch, "", ""⟩
  | '-' :: rest =>
    if validPre (String.mk (rest.takeWhile (fun c => c != '+'))) then
      match rest.dropWhile (fun c => c != '+') with
      | [] => some ⟨major, minor, patch, String.mk (rest.takeWhile (fun c => c != '+')), ""⟩
      | '+' :: bs =>
        if validBuild (String.mk bs) then
          some ⟨major, minor, patch, String.mk (rest.takeWhile (fun c => c != '+')), String.mk bs⟩
        else none
      | _ => none
    else none
  | '+' :: bs =>
    if validBuild (String.mk bs) then some ⟨major, minor, patch, "", String.mk bs⟩
    else none
  | _ => none

/-- `Version::parse` of the semver crate on a character list. -/
def semverParseChars (cs : List Char) : Option Version := do
  let (major, r1) ← parseNumPart cs
  let r2 ← expectDot r1
  let (minor, r3) ← parseNumPart r2
  let r4 ← expectDot r3
  let (patch, r5) ← parseNumPart r4
  parseTail major minor patch r5

def semverParse (s : String) : Option Version :=
  semverParseChars s.data

/-- The `Display` rendering of a version, as a character list. -/
def semverPrintChars (v : Version) : List Char :=
  natChars v.major ++ ('.' :: (natChars v.minor ++ ('.' :: (natChars v.patch
    ++ ((if v.pre = "" then [] else '-' :: v.pre.data)
        ++ (if v.build = "" then [] else '+' :: v.build.data))))))

def semverPrint (v : Version) : String :=
  String.mk (semverPrintChars v)

/-- A version value constructible through the crate's public API:
components fit in `u64` and the prerelease/build strings, when
nonempty, pass the crate's identifier validation. -/
def wfVersion (v : Version) : Bool :=
  decide (v.major < u64Bound) && decide (v.minor < u64Bound) &&
    decide (v.patch < u64Bound) &&
    (v.pre == "" || validPre v.pre) && (v.build == "" || validBuild v.build)

/-- Deserialize `semver::Version`: a JSON string whose content parses
as a semantic version; the failure is the distinguished semver error. -/
def versionOfJson : Json → Except DeErr Version
  | .str s =>
    match semverParse s with
    | some v => .ok v
    | none => .error (.semverErr s)
  | _ => .error (.invalidType "semver string")

def versionToJson (v : Version) : Json :=
  Json.str (semverPrint v)

/-! ## The descriptor model

One Lean structure per Rust struct, fields in declaration order with
the source's internal names; the wire keys used by the (de)serializers
are the camelCase renames where the source applies `rename_all`. -/

/-- Maintainer describes a bundle maintainer. -/
structure Maintainer where
  email : Option String
  name : String
  url : Option String
deriving DecidableEq

/-- Platform defines a machine architecture plus an operating system. -/
structure Platform where
  arch : Option String
  os : Option String
deriving DecidableEq

/-- Image describes a CNAB image. -/
structure Image where
  description : Option String
  content_digest : Option String
  image : String
  image_type : Option String
  media_type : Option String
  platform : Option Platform
  size : Option Int
  labels : Option (List (String × String))
deriving DecidableEq

/-- InvocationImage describes a bootstrapping image for a CNAB bundle. -/
structure InvocationImage where
  content_digest : Option String
  image : String
  image_type : Option String
  media_type : Option String
  size : Option Int
  labels : Option (List (String × String))
deriving DecidableEq

/-- Credential describes a credential that may be injected into a
bundle; `path` is the `PathBuf` of the source, modelled as a string. -/
structure Credential where
  description : Option String
  env : Option String
  path : Option String
  required : Option Bool
deriving DecidableEq

/-- Destination describes where a parameter value should be placed. -/
structure Destination where
  env : Option String
  path : Option String
deriving DecidableEq

/-- Parameter describes a parameter injected into the invocation image. -/
structure Parameter where
  apply_to : Option (List String)
  definition : Option String
  description : Option String
  destination : Destination
  required : Option Bool
deriving DecidableEq

/-- An Action is a custom action in an invocation image. -/
structure Action where
  description : Option String
  modifies : Bool
  stateless : Bool
deriving DecidableEq

/-- A value that is produced by running an invocation image. -/
structure Output where
  apply_to : Option (List String)
  definition : String
  description : Option String
  path : Option String
deriving DecidableEq

/-- Bundle implements a CNAB bundle descriptor. -/
structure Bundle where
  actions : Option (List (String × Action))
  credentials : Option (List (String × Credential))
  custom : Option (List (String × Json))
  definitions : Option (List (String × Json))
  description : Option String
  images : Option (List (String × Image))
  invocation_images : List InvocationImage
  keywords : Option (List String)
  license : Option String
  maintainers : Option (List Maintainer)
  name : String
  outputs : Option (List (String × Output))
  parameters : Option (List (String × Parameter))
  schema_version : String
  version : Version

/-! ## Serializers (derive `Serialize`: declaration order, camelCase) -/

def Maintainer.toJson (m : Maintainer) : Json :=
  .obj [("email", optJson Json.str m.email),
        ("name", Json.str m.name),
        ("url", optJson Json.str m.url)]

def Platform.toJson (p : Platform) : Json :=
  .obj [("arch", optJson Json.str p.arch),
        ("os", optJson Json.str p.os)]

def Image.toJson (i : Image) : Json :=
  .obj [("description", optJson Json.str i.description),
        ("contentDigest", optJson Json.str i.content_digest),
        ("image", Json.str i.image),
        ("imageType", optJson Json.str i.image_type),
        ("mediaType", optJson Json.str i.media_type),
        ("platform", optJson Platform.toJson i.platform),
        ("size", optJson Json.num i.size),
        ("labels", optJson (mapToJson Json.str) i.labels)]

def InvocationImage.toJson (i : InvocationImage) : Json :=
  .obj [("contentDigest", optJson Json.str i.content_digest),
        ("image", Json.str i.image),
        ("imageType", optJson Json.str i.image_type),
        ("mediaType", optJson Json.str i.media_type),
        ("size", optJson Json.num i.size),
        ("labels", optJson (mapToJson Json.str) i.labels)]

def Credential.toJson (c : Credential) : Json :=
  .obj [("description", optJson Json.str c.description),
        ("env", optJson Json.str c.env),
        ("path", optJson Json.str c.path),
        ("required", optJson Json.bool c.required)]

def Destination.toJson (d : Destination) : Json :=
  .obj [("env", optJson Json.str d.env),
        ("path", optJson Json.str d.path)]

def Parameter.toJson (p : Parameter) : Json :=
  .obj [("applyTo", optJson strListToJson p.apply_to),
        ("definition", optJson Json.str p.definition),
        ("description", optJson Json.str p.description),
        ("destination", p.destination.toJson),
        ("required", optJson Json.bool p.required)]

def Action.toJson (a : Action) : Json :=
  .obj [("description", optJson Json.str a.description),
        ("modifies", Json.bool a.modifies),
        ("stateless", Json.bool a.stateless)]

def Output.toJson (o : Output) : Json :=
  .obj [("applyTo", optJson strListToJson o.apply_to),
        ("definition", Json.str o.definition),
        ("description", optJson Json.str o.description),
        ("path", optJson Json.str o.path)]

def Bundle.toJson (b : Bundle) : Json :=
  .obj [("actions", optJson (mapToJson Action.toJson) b.actions),
        ("credentials", optJson (mapToJson Credential.toJson) b.credentials),
        ("custom", optJson (mapToJson id) b.custom),
        ("definitions", optJson (mapToJson id) b.definitions),
        ("description", optJson Json.str b.description),
        ("images", optJson (mapToJson Image.toJson) b.images),
        ("invocationImages", Json.arr (b.invocation_images.map InvocationImage.toJson)),
        ("keywords", optJson strListToJson b.keywords),
        ("license", optJson Json.str b.license),
        ("maintainers", optJson (fun l => Json.arr (l.map Maintainer.toJson)) b.maintainers),
        ("name", Json.str b.name),
        ("outputs", optJson (mapToJson Output.toJson) b.outputs),
        ("parameters", optJson (mapToJson Parameter.toJson) b.parameters),
        ("schemaVersion", Json.str b.schema_version),
        ("version", versionToJson b.version)]

/-! ## Deserializers (derive `Deserialize`) -/

def Maintainer.ofJson : Json → Except DeErr Maintainer
  | .obj fields => do
    let email ← optField fields "email" asString
    let name ← reqField fields "name" asString
    let url ← optField fields "url" asString
    pure ⟨email, name, url⟩
  | _ => .error (.invalidType "struct Maintainer")

def Platform.ofJson : Json → Except DeErr Platform
  | .obj fields => do
    let arch ← optField fields "arch" asString
    let os ← optField fields "os" asString
    pure ⟨arch, os⟩
  | _ => .error (.invalidType "struct Platform")

def Image.ofJson : Json → Except DeErr Image
  | .obj fields => do
    let description ← optField fields "description" asString
    let content_digest ← optField fields "contentDigest" asString
    let image ← reqField fields "image" asString
    let image_type ← optField fields "imageType" asString
    let media_type ← optField fields "mediaType" asString
    let platform ← optField fields "platform" Platform.ofJson
    let size ← optField fields "size" asI64
    let labels ← optField fields "labels" (asMap asString)
    pure ⟨description, content_digest, image, image_type, media_type, platform, size, labels⟩
  | _ => .error (.invalidType "struct Image")

def InvocationImage.ofJson : Json → Except DeErr InvocationImage
  | .obj fields => do
    let content_digest ← optField fields "contentDigest" asString
    let image ← reqField fields "image" asString
    let image_type ← optField fields "imageType" asString
    let media_type ← optField fields "mediaType" asString
    let size ← optField fields "size" asI64
    let labels ← optField fields "labels" (asMap asString)
    pure ⟨content_digest, image, image_type, media_type, size, labels⟩
  | _ => .error (.invalidType "struct InvocationImage")

def Credential.ofJson : Json → Except DeErr Credential
  | .obj fields => do
    let description ← optField fields "description" asString
    let env ← optField fields "env" asString
    let path ← optField fields "path" asString
    let required ← optField fields "required" asBool
    pure ⟨description, env, path, required⟩
  | _ => .error (.invalidType "struct Credential")

def Destination.ofJson : Json → Except DeErr Destination
  | .obj fields => do
    let env ← optField fields "env" asString
    let path ← optField fields "path" asString
    pure ⟨env, path⟩
  | _ => .error (.invalidType "struct Destination")

def Parameter.ofJson : Json → Except DeErr Parameter
  | .obj fields => do
    let apply_to ← optField fields "applyTo" asStringList
    let definition ← optField fields "definition" asString
    let description ← optField fields "description" asString
    let destination ← reqField fields "destination" Destination.ofJson
    let required ← optField fields "required" asBool
    pure ⟨apply_to, definition, description, destination, required⟩
  | _ => .error (.invalidType "struct Parameter")

def Action.ofJson : Json → Except DeErr Action
  | .obj fields => do
    let description ← optField fields "description" asString
    let modifies ← defBoolField fields "modifies"
    let stateless ← defBoolField fields "stateless"
    pure ⟨description, modifies, stateless⟩
  | _ => .error (.invalidType "struct Action")

def Output.ofJson : Json → Except DeErr Output
  | .obj fields => do
    let apply_to ← optField fields "applyTo" asStringList
    let definition ← reqField fields "definition" asString
    let description ← optField fields "description" asString
    let path ← optField fields "path" asString
    pure ⟨apply_to, definition, description, path⟩
  | _ => .error (.invalidType "struct Output")

def Bundle.ofJson : Json → Except DeErr Bundle
  | .obj fields => do
    let actions ← optField fields "actions" (asMap Action.ofJson)
    let credentials ← optField fields "credentials" (asMap Credential.ofJson)
    let custom ← optField fields "custom" (asMap Except.ok)
    let definitions ← optField fields "definitions" (asMap Except.ok)
    let description ← optField fields "description" asString
    let images ← optField fields "images" (asMap Image.ofJson)
    let invocation_images ← reqField fields "invocationImages" (asList InvocationImage.ofJson)
    let keywords ← optField fields "keywords" asStringList
    let license ← optField fields "license" asString
    let maintainers ← optField fields "maintainers" (asList Maintainer.ofJson)
    let name ← reqField fields "name" asString
    let outputs ← optField fields "outputs" (asMap Output.ofJson)
    let parameters ← optField fields "parameters" (asMap Parameter.ofJson)
    let schema_version ← reqField fields "schemaVersion" asString
    let version ← reqField fields "version" versionOfJson
    pure ⟨actions, credentials, custom, definitions, description, images,
          invocation_images, keywords, license, maintainers, name, outputs,
          parameters, schema_version, version⟩
  | _ => .error (.invalidType "struct Bundle")

/-! ## The JSON text layer

A total model of the out-of-scope JSON collaborator's text parser
(`serde_json`): fuel-bounded recursive descent over the character
list.  The model covers the JSON fragment the descriptor format uses:
null, booleans, integral numbers within `u64` magnitude, strings with
the simple escapes, arrays and objects; floating point literals and
`\u` escapes are reported as (model-level) syntax errors. -/

def jsonWs (c : Char) : Bool :=
  c == ' ' || c == '\t' || c == '\n' || c == '\r'

def unescape : Char → Option Char
  | 'n' => some '\n'
  | 't' => some '\t'
  | 'r' => some '\r'
  | 'b' => some (Char.ofNat 8)
  | 'f' => some (Char.ofNat 12)
  | '"' => some '"'
  | '\\' => some '\\'
  | '/' => some '/'
  | _ => none

/-- Parse the body of a string literal after the opening quote,
returning the content and the remainder after the closing quote. -/
def parseStringBody : List Char → Option (List Char × List Char)
  | [] => none
  | '\\' :: rest =>
    (match rest with
     | [] => none
     | e :: rest2 =>
       match unescape e with
       | none => none
       | some c2 =>
         match parseStringBody rest2 with
         | none => none
         | some (s, r) => some (c2 :: s, r))
  | c :: rest =>
    if c = '"' then some ([], rest)
    else if c.toNat < 32 then none
    else
      match parseStringBody rest with
      | none => none
      | some (s, r) => some (c :: s, r)

/-- A character that would continue a number literal as a float. -/
def isFloatStart : Option Char → Bool
  | some c => c = '.' || c = 'e' || c = 'E'
  | none => false

/-- Parse an integral number literal starting at a digit run; JSON
forbids leading zeros, and the model bounds magnitude by `u64`. -/
def parseNumLit (neg : Bool) (cs : List Char) : Except DeErr (Json × List Char) :=
  if (cs.takeWhile isDigitChar).isEmpty then .error (.jsonText "expected digits")
  else if (cs.takeWhile isDigitChar).length != 1
      && (cs.takeWhile isDigitChar).head? == some '0' then
    .error (.jsonText "leading zero in number")
  else if isFloatStart (cs.dropWhile isDigitChar).head? then
    .error (.jsonText "float literal outside model")
  else if digitsVal (cs.takeWhile isDigitChar) < u64Bound then
    .ok (.num (if neg then -(digitsVal (cs.takeWhile isDigitChar) : Int)
               else (digitsVal (cs.takeWhile isDigitChar) : Int)),
        cs.dropWhile isDigitChar)
  else .error (.jsonText "number outside model range")

mutual

/-- Parse one JSON value after skipping whitespace. -/
def parseVal : Nat → List Char → Except DeErr (Json × List Char)
  | 0, _ => .error (.jsonText "recursion limit exceeded")
  | fuel + 1, cs =>
    match cs.dropWhile jsonWs with
    | [] => .error (.jsonText "eof while parsing a value")
    | c :: rest =>
      if c = '"' then
        match parseStringBody rest with
        | none => .error (.jsonText "invalid string literal")
        | some (s, r) => .ok (.str (String.mk s), r)
      else if c = '-' then parseNumLit true rest
      else if isDigitChar c then parseNumLit false (c :: rest)
      else if c = '[' then
        if (rest.dropWhile jsonWs).head? == some ']' then
          .ok (.arr [], (rest.dropWhile jsonWs).tail)
        else
          match parseArrItems fuel rest with
          | .error e => .error e
          | .ok (elems, r) => .ok (.arr elems, r)
      else if c = '{' then
        if (rest.dropWhile jsonWs).head? == some '}' then
          .ok (.obj [], (rest.dropWhile jsonWs).tail)
        else
          match parseObjItems fuel rest with
          | .error e => .error e
          | .ok (fields, r) => .ok (.obj fields, r)
      else
        match c :: rest with
        | 't' :: 'r' :: 'u' :: 'e' :: r => .ok (Json.bool true, r)
        | 'f' :: 'a' :: 'l' :: 's' :: 'e' :: r => .ok (Json.bool false, r)
        | 'n' :: 'u' :: 'l' :: 'l' :: r => .ok (Json.null, r)
        | _ => .error (.jsonText "unexpected character")

/-- Parse comma-separated array elements up to the closing bracket. -/
def parseArrItems : Nat → List Char → Except DeErr (List Json × List Char)
  | 0, _ => .error (.jsonText "recursion limit exceeded")
  | fuel + 1, cs =>
    match parseVal fuel cs with
    | .error e => .error e
    | .ok (v, rest) =>
      match rest.dropWhile jsonWs with
      | ']' :: r => .ok ([v], r)
      | ',' :: r =>
        (match parseArrItems fuel r with
         | .error e => .error e
         | .ok (vs, r2) => .ok (v :: vs, r2))
      | _ => .error (.jsonText "expected comma or bracket")

/-- Parse comma-separated object members up to the closing brace. -/
def parseObjItems : Nat → List Char → Except DeErr (List (String × Json) × List Char)
  | 0, _ => .error (.jsonText "recursion limit exceeded")
  | fuel + 1, cs =>
    match cs.dropWhile jsonWs with
    | '"' :: rest =>
      (match parseStringBody rest with
       | none => .error (.jsonText "invalid string literal")
       | some (k, r) =>
         match r.dropWhile jsonWs with
         | ':' :: r2 =>
           (match parseVal fuel r2 with
            | .error e => .error e
            | .ok (v, r3) =>
              match r3.dropWhile jsonWs with
              | '}' :: r4 => .ok ([(String.mk k, v)], r4)
              | ',' :: r4 =>
                (match parseObjItems fuel r4 with
                 | .error e => .error e
                 | .ok (fields, r5) => .ok ((String.mk k, v) :: fields, r5))
              | _ => .error (.jsonText "expected comma or brace")
           )
         | _ => .error (.jsonText "expected colon")
      )
    | _ => .error (.jsonText "expected object key")

end

/-- Decode a whole text into one JSON value: parse one value and
require only whitespace to remain, as `serde_json::from_str` does. -/
def jsonDecode (s : String) : Except DeErr Json :=
  match parseVal (2 * s.length + 8) s.data with
  | .error e => .error e
  | .ok (j, rest) =>
    if (rest.dropWhile jsonWs).isEmpty then .ok j
    else .error (.jsonText "trailing characters")

/-- `impl FromStr for Bundle`: parse the text, then deserialize; the
error type is the JSON collaborator's own error. -/
def Bundle.from_str (json_data : String) : Except DeErr Bundle :=
  jsonDecode json_data >>= Bundle.ofJson

/-! ## The JSON text printer

The collaborator's compact writer (`serde_json::to_string`): no
whitespace, strings escaped.  The model prints the short escapes and
requires other control characters absent (the real writer would emit
`\u00XX`, which the model's reader does not cover). -/

/-- Escape one string character the way the compact writer does. -/
def escapeChar (c : Char) : List Char :=
  if c = '"' then ['\\', '"']
  else if c = '\\' then ['\\', '\\']
  else if c = '\n' then ['\\', 'n']
  else if c = '\t' then ['\\', 't']
  else if c = '\r' then ['\\', 'r']
  else if c.toNat = 8 then ['\\', 'b']
  else if c.toNat = 12 then ['\\', 'f']
  else [c]

def escapeChars : List Char → List Char
  | [] => []
  | c :: cs => escapeChar c ++ escapeChars cs

/-- Decimal rendering of an `i64`. -/
def intChars (n : Int) : List Char :=
  if n < 0 then '-' :: natChars n.natAbs else natChars n.natAbs

mutual

/-- Compact rendering of one JSON value. -/
def printVal : Json → List Char
  | .null => 'n' :: ['u', 'l', 'l']
  | .bool true => 't' :: ['r', 'u', 'e']
  | .bool false => 'f' :: ['a', 'l', 's', 'e']
  | .num n => intChars n
  | .str s => '"' :: (escapeChars s.data ++ ['"'])
  | .arr [] => ['[', ']']
  | .arr (x :: xs) => '[' :: (printItems x xs ++ [']'])
  | .obj [] => ['{', '}']
  | .obj ((k, v) :: xs) => '{' :: (printMembers k v xs ++ ['}'])
termination_by j => sizeOf j

/-- Comma-separated rendering of a nonempty element list. -/
def printItems : Json → List Json → List Char
  | x, [] => printVal x
  | x, y :: ys => printVal x ++ ',' :: printItems y ys
termination_by x xs => sizeOf x + sizeOf xs

/-- Comma-separated rendering of a nonempty member list. -/
def printMembers : String → Json → List (String × Json) → List Char
  | k, v, [] => '"' :: (escapeChars k.data ++ '"' :: ':' :: printVal v)
  | k, v, (k2, v2) :: xs =>
    ('"' :: (escapeChars k.data ++ '"' :: ':' :: printVal v))
      ++ ',' :: printMembers k2 v2 xs
termination_by k v xs => sizeOf v + sizeOf xs

end

/-- A string character the model's writer/reader pair covers: visible
characters plus the five short-escaped controls. -/
def printableChar (c : Char) : Bool :=
  decide (32 ≤ c.toNat) || c = '\n' || c = '\t' || c = '\r'
    || decide (c.toNat = 8) || decide (c.toNat = 12)

def printableStr (s : String) : Bool :=
  s.data.all printableChar

mutual

/-- A value tree the model's writer/reader pair round-trips: strings
printable and numbers within the reader's `u64` magnitude. -/
def jsonPrintable : Json → Bool
  | .null => true
  | .bool _ => true
  | .num n => decide (n.natAbs < u64Bound)
  | .str s => printableStr s
  | .arr l => listPrintable l
  | .obj l => membersPrintable l
termination_by j => sizeOf j

def listPrintable : List Json → Bool
  | [] => true
  | x :: xs => jsonPrintable x && listPrintable xs
termination_by l => sizeOf l

def membersPrintable : List (String × Json) → Bool
  | [] => true
  | (k, v) :: xs => printableStr k && jsonPrintable v && membersPrintable xs
termination_by l => sizeOf l

end

mutual

/-- Fuel sufficient for `parseVal` to read the printed value back. -/
def fuelVal : Json → Nat
  | .null => 1
  | .bool _ => 1
  | .num _ => 1
  | .str _ => 1
  | .arr [] => 1
  | .arr (x :: xs) => 1 + fuelArr x xs
  | .obj [] => 1
  | .obj ((k, v) :: xs) => 1 + fuelObj k v xs
termination_by j => sizeOf j

def fuelArr : Json → List Json → Nat
  | x, [] => 1 + fuelVal x
  | x, y :: ys => 1 + max (fuelVal x) (fuelArr y ys)
termination_by x xs => sizeOf x + sizeOf xs

def fuelObj : String → Json → List (String × Json) → Nat
  | _, v, [] => 1 + fuelVal v
  | _, v, (k2, v2) :: xs => 1 + max (fuelVal v) (fuelObj k2 v2 xs)
termination_by k v xs => sizeOf v + sizeOf xs

end

/-- `serde_json::to_string` of a Bundle through its derived
`Serialize`: the spec's `serialize(Bundle) -> text` operation. -/
def Bundle.serialize (b : Bundle) : String :=
  String.mk (printVal (Bundle.toJson b))

/-- Model of `std::io::Error` as its kind. -/
inductive IoErr where
  | notFound : IoErr
  | permissionDenied : IoErr
  | other (msg : String) : IoErr
deriving DecidableEq

/-- Represents an error parsing a bundle descriptor. -/
inductive BundleParseError where
  | SerdeJSONError (e : DeErr) : BundleParseError
  | IoError (e : IoErr) : BundleParseError
deriving DecidableEq

/-- `Bundle::from_json`: deserialize from a readable source whose
content is the given text; a failure of the JSON collaborator is
wrapped into `SerdeJSONError` by the `From` conversion. -/
def Bundle.from_json (content : String) : Except BundleParseError Bundle :=
  (Bundle.from_str content).mapError BundleParseError.SerdeJSONError

/-- `Bundle::from_file`: open the file through the file-system
collaborator `fs` (a map from path to read outcome); a read failure
is wrapped into `IoError` by the `From` conversion, the content
otherwise flows into `from_json`. -/
def Bundle.from_file (fs : String → Except IoErr String) (path : String) :
    Except BundleParseError Bundle :=
  match fs path with
  | .error e => .error (.IoError e)
  | .ok content => Bundle.from_json content

/-! ## Well-formedness: the representation invariants a directly
constructed value carries in Rust by virtue of its types
(`BTreeMap` sortedness, `i64` range, crate-validated version). -/

/-- Keys strictly ascending: the `BTreeMap` invariant on the
association-list representation. -/
def keysPairwiseB : List (String × α) → Bool
  | [] => true
  | a :: rest => rest.all (fun b => decide (a.1 < b.1)) && keysPairwiseB rest

def wfI64 (n : Int) : Bool :=
  decide (i64Min ≤ n) && decide (n ≤ i64Max)

def wfOpt (p : α → Bool) : Option α → Bool
  | none => true
  | some x => p x

def Image.wf (i : Image) : Bool :=
  wfOpt wfI64 i.size && wfOpt keysPairwiseB i.labels

def InvocationImage.wf (i : InvocationImage) : Bool :=
  wfOpt wfI64 i.size && wfOpt keysPairwiseB i.labels

def Bundle.wf (b : Bundle) : Bool :=
  wfOpt keysPairwiseB b.actions &&
  wfOpt keysPairwiseB b.credentials &&
  wfOpt keysPairwiseB b.custom &&
  wfOpt keysPairwiseB b.definitions &&
  wfOpt (fun m => keysPairwiseB m && m.all (fun kv => kv.2.wf)) b.images &&
  b.invocation_images.all InvocationImage.wf &&
  wfOpt keysPairwiseB b.outputs &&
  wfOpt keysPairwiseB b.parameters &&
  wfVersion b.version

/-! ## Helper lemmas -/

theorem exBind_ok (a : α) (f : α → Except ε β) :
    (Except.ok a >>= f) = f a := rfl

theorem exBind_elim {x : Except ε α} {f : α → Except ε β} {b : β}
    (h : (x >>= f) = .ok b) : ∃ a, x = .ok a ∧ f a = .ok b := by
  cases x with
  | ok a => exact ⟨a, rfl, h⟩
  | error e => exact absurd h (by simp [Bind.bind, Except.bind])

theorem exMap_ok {x : Except ε α} {f : α → β} {b : β}
    (h : x.map f = .ok b) : ∃ a, x = .ok a ∧ f a = b := by
  cases x with
  | ok a => exact ⟨a, rfl, by simpa [Except.map] using h⟩
  | error e => exact absurd h (by simp [Except.map])

theorem takeWhile_append_all {p : Char → Bool} {xs ys : List Char}
    (hxs : ∀ c ∈ xs, p c = true)
    (hys : ∀ c, ys.head? = some c → p c = false) :
    (xs ++ ys).takeWhile p = xs := by
  induction xs with
  | nil =>
    cases ys with
    | nil => rfl
    | cons c rest => simp [List.takeWhile_cons, hys c rfl]
  | cons x xs ih =>
    have hx := hxs x (by simp)
    simp only [List.cons_append, List.takeWhile_cons, hx]
    simp [ih (fun c hc => hxs c (by simp [hc]))]

theorem dropWhile_append_all {p : Char → Bool} {xs ys : List Char}
    (hxs : ∀ c ∈ xs, p c = true)
    (hys : ∀ c, ys.head? = some c → p c = false) :
    (xs ++ ys).dropWhile p = ys := by
  induction xs with
  | nil =>
    cases ys with
    | nil => rfl
    | cons c rest => simp [List.dropWhile_cons, hys c rfl]
  | cons x xs ih =>
    have hx := hxs x (by simp)
    simp only [List.cons_append, List.dropWhile_cons, hx]
    simpa using ih (fun c hc => hxs c (by simp [hc]))

theorem digitChar_val {d : Nat} (h : d < 10) : (digitChar d).toNat - 48 = d := by
  interval_cases d <;> rfl

theorem digitChar_isDigit {d : Nat} (h : d < 10) : isDigitChar (digitChar d) = true := by
  interval_cases d <;> rfl

theorem digitChar_ne_zero {d : Nat} (h0 : d ≠ 0) (h : d < 10) : digitChar d ≠ '0' := by
  interval_cases d <;> simp_all <;> decide

theorem digitsVal_rev_aux (ds : List Nat) (h : ∀ d ∈ ds, d < 10) (a : Nat) :
    ((ds.map digitChar).reverse).foldl (fun a c => 10 * a + (c.toNat - 48)) a
      = a * 10 ^ ds.length + Nat.ofDigits 10 ds := by
  induction ds generalizing a with
  | nil => simp [Nat.ofDigits_nil]
  | cons d ds ih =>
    have hd : d < 10 := h d (by simp)
    have hds : ∀ x ∈ ds, x < 10 := fun x hx => h x (by simp [hx])
    simp only [List.map_cons, List.reverse_cons, List.foldl_append, List.foldl_cons,
      List.foldl_nil, ih hds, Nat.ofDigits_cons, List.length_cons]
    rw [digitChar_val hd]
    ring

theorem digitsVal_natChars (n : Nat) : digitsVal (natChars n) = n := by
  by_cases h : n = 0
  · subst h; rfl
  · unfold natChars digitsVal
    rw [if_neg h]
    have hlt : ∀ d ∈ Nat.digits 10 n, d < 10 :=
      fun d hd => Nat.digits_lt_base (by norm_num) hd
    rw [digitsVal_rev_aux (Nat.digits 10 n) hlt 0]
    simp [Nat.ofDigits_digits]

theorem natChars_all_digit (n : Nat) : ∀ c ∈ natChars n, isDigitChar c = true := by
  intro c hc
  unfold natChars at hc
  by_cases h : n = 0
  · simp [h] at hc; subst hc; rfl
  · rw [if_neg h] at hc
    rw [List.mem_reverse] at hc
    obtain ⟨d, hd, rfl⟩ := List.mem_map.mp hc
    exact digitChar_isDigit (Nat.digits_lt_base (by norm_num) hd)

theorem natChars_ne_nil (n : Nat) : (natChars n).isEmpty = false := by
  by_cases h : n = 0
  · subst h; rfl
  · unfold natChars
    rw [if_neg h]
    have : Nat.digits 10 n ≠ [] := Nat.digits_ne_nil_iff_ne_zero.mpr h
    simp [List.isEmpty_iff, this]

theorem map_getLast? (f : α → β) : ∀ l : List α, (l.map f).getLast? = l.getLast?.map f
  | [] => rfl
  | [_] => rfl
  | a :: b :: t => by
    simp only [List.map_cons, List.getLast?_cons_cons]
    rw [← List.map_cons f b t]
    exact map_getLast? f (b :: t)

theorem natChars_head_ne_zero {n : Nat} (h2 : (natChars n).length ≠ 1) :
    (natChars n).head? ≠ some '0' := by
  by_cases h : n = 0
  · subst h; simp [natChars] at h2
  · unfold natChars
    rw [if_neg h]
    have hne : Nat.digits 10 n ≠ [] := Nat.digits_ne_nil_iff_ne_zero.mpr h
    rw [List.head?_reverse, map_getLast? digitChar,
      List.getLast?_eq_getLast_of_ne_nil hne]
    intro hcontra
    have hlast : (Nat.digits 10 n).getLast hne ≠ 0 := Nat.getLast_digit_ne_zero 10 h
    have hmem : (Nat.digits 10 n).getLast hne ∈ Nat.digits 10 n := List.getLast_mem hne
    have hlt : (Nat.digits 10 n).getLast hne < 10 := Nat.digits_lt_base (by norm_num) hmem
    exact digitChar_ne_zero hlast hlt (by simpa using hcontra)

theorem strMkData (s : String) : String.mk s.data = s := by
  cases s
  rfl

theorem splitOnDot_mem {c : Char} : ∀ {cs : List Char}, c ∈ cs →
    c = '.' ∨ ∃ g ∈ splitOnDot cs, c ∈ g := by
  intro cs
  induction cs with
  | nil => intro h; exact absurd h (List.not_mem_nil c)
  | cons x rest ih =>
    intro h
    rcases List.mem_cons.mp h with rfl | hr
    · by_cases hx : c = '.'
      · exact Or.inl hx
      · refine Or.inr ?_
        simp only [splitOnDot, if_neg hx]
        rcases hsp : splitOnDot rest with _ | ⟨g, gs⟩
        · exact ⟨[c], by simp⟩
        · exact ⟨c :: g, by simp⟩
    · rcases ih hr with hc | ⟨g, hg, hcg⟩
      · exact Or.inl hc
      · refine Or.inr ?_
        simp only [splitOnDot]
        by_cases hx : x = '.'
        · rw [if_pos hx]
          exact ⟨g, List.mem_cons_of_mem _ hg, hcg⟩
        · rw [if_neg hx]
          rcases hsp : splitOnDot rest with _ | ⟨g0, gs0⟩
          · rw [hsp] at hg
            exact absurd hg (List.not_mem_nil g)
          · rw [hsp] at hg
            rcases List.mem_cons.mp hg with rfl | hgs
            · exact ⟨x :: g, by simp, List.mem_cons_of_mem _ hcg⟩
            · exact ⟨g, List.mem_cons_of_mem _ hgs, hcg⟩

theorem validPre_chars {s : String} (h : validPre s = true) :
    ∀ c ∈ s.data, (c != '+') = true := by
  intro c hc
  rcases splitOnDot_mem hc with rfl | ⟨g, hg, hcg⟩
  · decide
  · have hv : validIdent g = true :=
      List.all_eq_true.mp h g hg
    simp only [validIdent, Bool.and_eq_true] at hv
    have hic : isIdentChar c = true :=
      List.all_eq_true.mp hv.1.2 c hcg
    by_cases hcp : c = '+'
    · subst hcp
      exact absurd hic (by decide)
    · simpa using hcp

theorem natChars_no_lead (n : Nat) :
    ((natChars n).length != 1 && (natChars n).head? == some '0') = false := by
  by_cases hl : (natChars n).length = 1
  · simp [hl]
  · have := natChars_head_ne_zero hl
    simp only [Bool.and_eq_false_iff]
    right
    simpa using this

theorem parseNumPart_print {n : Nat} (hn : n < u64Bound) (rest : List Char)
    (hrest : ∀ c, rest.head? = some c → isDigitChar c = false) :
    parseNumPart (natChars n ++ rest) = some (n, rest) := by
  unfold parseNumPart
  rw [takeWhile_append_all (natChars_all_digit n) hrest,
    dropWhile_append_all (natChars_all_digit n) hrest]
  rw [natChars_ne_nil n, natChars_no_lead n]
  simp [digitsVal_natChars n, hn]

theorem expectDot_cons (l : List Char) : expectDot ('.' :: l) = some l := rfl

theorem parseTail_nil (a b c : Nat) : parseTail a b c [] = some ⟨a, b, c, "", ""⟩ := rfl

theorem parseTail_dash (a b c : Nat) (l : List Char) :
    parseTail a b c ('-' :: l) =
      if validPre (String.mk (l.takeWhile (fun c => c != '+'))) then
        match l.dropWhile (fun c => c != '+') with
        | [] => some ⟨a, b, c, String.mk (l.takeWhile (fun c => c != '+')), ""⟩
        | '+' :: bs =>
          if validBuild (String.mk bs) then
            some ⟨a, b, c, String.mk (l.takeWhile (fun c => c != '+')), String.mk bs⟩
          else none
        | _ => none
      else none := rfl

theorem parseTail_plus (a b c : Nat) (bs : List Char) :
    parseTail a b c ('+' :: bs) =
      if validBuild (String.mk bs) then some ⟨a, b, c, "", String.mk bs⟩ else none := rfl

theorem semverParseChars_core {major minor patch : Nat} (hmaj : major < u64Bound)
    (hmin : minor < u64Bound) (hpat : patch < u64Bound) (T : List Char)
    (hT : ∀ c, T.head? = some c → isDigitChar c = false) :
    semverParseChars
        (natChars major ++ '.' :: (natChars minor ++ '.' :: (natChars patch ++ T)))
      = parseTail major minor patch T := by
  have h1 := parseNumPart_print hmaj ('.' :: (natChars minor ++ '.' :: (natChars patch ++ T)))
    (by intro c hc; simp at hc; subst hc; decide)
  have h2 := parseNumPart_print hmin ('.' :: (natChars patch ++ T))
    (by intro c hc; simp at hc; subst hc; decide)
  have h3 := parseNumPart_print hpat T hT
  simp only [semverParseChars, h1, h2, h3, expectDot_cons, bind, Option.bind]

theorem semver_print_parse {v : Version} (h : wfVersion v = true) :
    semverParse (semverPrint v) = some v := by
  obtain ⟨major, minor, patch, pre, build⟩ := v
  simp only [wfVersion, Bool.and_eq_true, decide_eq_true_eq, Bool.or_eq_true,
    beq_iff_eq] at h
  obtain ⟨⟨⟨⟨hmaj, hmin⟩, hpat⟩, hpre⟩, hbuild⟩ := h
  show semverParseChars (semverPrintChars ⟨major, minor, patch, pre, build⟩) = _
  simp only [semverPrintChars]
  by_cases hp : pre = "" <;> by_cases hb : build = ""
  · -- no prerelease, no build
    rw [if_pos hp, if_pos hb]
    subst hp hb
    rw [List.nil_append ([] : List Char)]
    rw [semverParseChars_core hmaj hmin hpat [] (by intro c hc; simp at hc),
      parseTail_nil]
  · -- no prerelease, build present
    rw [if_pos hp, if_neg hb]
    subst hp
    have hvb : validBuild build = true := hbuild.resolve_left hb
    rw [List.nil_append ('+' :: build.data)]
    rw [semverParseChars_core hmaj hmin hpat ('+' :: build.data)
      (by intro c hc; simp at hc; subst hc; decide)]
    rw [parseTail_plus]
    simp [strMkData, hvb]
  · -- prerelease present, no build
    rw [if_neg hp, if_pos hb]
    subst hb
    have hvp : validPre pre = true := hpre.resolve_left hp
    have hxs : ∀ c ∈ pre.data, (fun c => c != '+') c = true := validPre_chars hvp
    have hys : ∀ c : Char, ([] : List Char).head? = some c →
        (fun c => c != '+') c = false := by
      intro c hc
      simp at hc
    have ht : pre.data.takeWhile (fun c => c != '+') = pre.data := by
      simpa using takeWhile_append_all hxs hys
    have hd : pre.data.dropWhile (fun c => c != '+') = [] := by
      simpa using dropWhile_append_all hxs hys
    rw [List.append_nil ('-' :: pre.data)]
    rw [semverParseChars_core hmaj hmin hpat ('-' :: pre.data)
      (by intro c hc; simp at hc; subst hc; decide)]
    rw [parseTail_dash]
    simp [ht, hd, strMkData, hvp]
  · -- prerelease and build present
    rw [if_neg hp, if_neg hb]
    have hvp : validPre pre = true := hpre.resolve_left hp
    have hvb : validBuild build = true := hbuild.resolve_left hb
    have hxs : ∀ c ∈ pre.data, (fun c => c != '+') c = true := validPre_chars hvp
    have hys : ∀ c : Char, ('+' :: build.data).head? = some c →
        (fun c => c != '+') c = false := by
      intro c hc
      simp at hc
      subst hc
      decide
    have ht : (pre.data ++ '+' :: build.data).takeWhile (fun c => c != '+') = pre.data :=
      takeWhile_append_all hxs hys
    have hd : (pre.data ++ '+' :: build.data).dropWhile (fun c => c != '+')
        = '+' :: build.data :=
      dropWhile_append_all hxs hys
    rw [List.cons_append '-' pre.data ('+' :: build.data)]
    rw [semverParseChars_core hmaj hmin hpat ('-' :: (pre.data ++ '+' :: build.data))
      (by intro c hc; simp at hc; subst hc; decide)]
    rw [parseTail_dash]
    simp [ht, hd, strMkData, hvp, hvb]

/-! ## Round-trip lemmas for the building blocks -/

theorem keysPairwiseB_cons {a : String × α} {m : List (String × α)} :
    keysPairwiseB (a :: m) = true ↔
      (∀ b ∈ m, a.1 < b.1) ∧ keysPairwiseB m = true := by
  simp [keysPairwiseB, Bool.and_eq_true, List.all_eq_true]

theorem insertSorted_append {k : String} {v : α} :
    ∀ {m : List (String × α)}, (∀ kv ∈ m, kv.1 < k) →
      insertSorted k v m = m ++ [(k, v)] := by
  intro m
  induction m with
  | nil => intro _; rfl
  | cons kv2 rest ih =>
    intro h
    have h2 : kv2.1 < k := h kv2 (by simp)
    obtain ⟨k2, v2⟩ := kv2
    simp only [insertSorted]
    rw [if_neg (lt_asymm h2), if_neg (ne_of_gt h2)]
    simp [ih (fun kv hkv => h kv (by simp [hkv]))]

theorem foldl_insert_sorted :
    ∀ (m acc : List (String × α)),
      (∀ b ∈ m, ∀ a ∈ acc, a.1 < b.1) → keysPairwiseB m = true →
      m.foldl (fun m2 kv => insertSorted kv.1 kv.2 m2) acc = acc ++ m := by
  intro m
  induction m with
  | nil => intro acc _ _; simp
  | cons kv rest ih =>
    intro acc hcross hsort
    obtain ⟨hhead, htail⟩ := keysPairwiseB_cons.mp hsort
    rw [List.foldl_cons]
    rw [insertSorted_append (fun a ha => hcross kv (by simp) a ha)]
    rw [ih (acc ++ [kv]) ?_ htail]
    · simp
    · intro b hb a ha
      rcases List.mem_append.mp ha with ha2 | ha2
      · exact hcross b (by simp [hb]) a ha2
      · have : a = kv := by simpa using ha2
        subst this
        exact hhead b hb

theorem buildMap_sorted {m : List (String × α)} (h : keysPairwiseB m = true) :
    buildMap m = m := by
  have := foldl_insert_sorted m [] (by simp) h
  simpa [buildMap] using this

theorem mapMExcept_map_ok {conv : β → Except DeErr α} {f : α → β} :
    ∀ {l : List α}, (∀ x ∈ l, conv (f x) = .ok x) →
      mapMExcept conv (l.map f) = .ok l := by
  intro l
  induction l with
  | nil => intro _; rfl
  | cons x rest ih =>
    intro h
    simp only [List.map_cons, mapMExcept, h x (by simp), exBind_ok,
      ih (fun y hy => h y (by simp [hy]))]
    rfl

theorem asMap_mapToJson {conv : Json → Except DeErr α} {f : α → Json}
    {m : List (String × α)} (hconv : ∀ kv ∈ m, conv (f kv.2) = .ok kv.2)
    (hs : keysPairwiseB m = true) :
    asMap conv (mapToJson f m) = .ok m := by
  simp only [mapToJson, asMap]
  rw [mapMExcept_map_ok (fun kv hkv => by rw [hconv kv hkv]; rfl)]
  simp [Except.map, buildMap_sorted hs]

theorem asStringList_rt (l : List String) : asStringList (strListToJson l) = .ok l := by
  simp only [strListToJson, asStringList, asList]
  exact mapMExcept_map_ok (fun x _ => rfl)

theorem optDecode_optJson {conv : Json → Except DeErr α} {f : α → Json} {x : Option α}
    (h : ∀ v, x = some v → conv (f v) = .ok v)
    (hnn : ∀ v, f v ≠ Json.null) :
    optDecode conv (optJson f x) = .ok x := by
  cases x with
  | none => rfl
  | some v =>
    have hok := h v rfl
    have hred : optDecode conv (f v) = (conv (f v)).map some := by
      rcases hfv : f v with _ | b | n | s | el | fl
      · exact absurd hfv (hnn v)
      all_goals simp [optDecode]
    show optDecode conv (f v) = _
    rw [hred, hok]
    rfl

theorem str_ne_null (s : String) : Json.str s ≠ Json.null :=
  fun h => Json.noConfusion h

theorem bool_ne_null (b : Bool) : Json.bool b ≠ Json.null :=
  fun h => Json.noConfusion h

theorem num_ne_null (n : Int) : Json.num n ≠ Json.null :=
  fun h => Json.noConfusion h

theorem arr_ne_null (l : List Json) : Json.arr l ≠ Json.null :=
  fun h => Json.noConfusion h

theorem mapToJson_ne_null (f : α → Json) (m : List (String × α)) :
    mapToJson f m ≠ Json.null := by
  unfold mapToJson
  exact fun h => Json.noConfusion h

theorem strListToJson_ne_null (l : List String) : strListToJson l ≠ Json.null := by
  unfold strListToJson
  exact fun h => Json.noConfusion h

theorem wfOpt_some {p : α → Bool} {x : Option α} {v : α}
    (h : wfOpt p x = true) (hx : x = some v) : p v = true := by
  subst hx
  exact h

theorem optDecode_str (x : Option String) :
    optDecode asString (optJson Json.str x) = .ok x :=
  optDecode_optJson (fun _ _ => rfl) str_ne_null

theorem optDecode_bool (x : Option Bool) :
    optDecode asBool (optJson Json.bool x) = .ok x :=
  optDecode_optJson (fun _ _ => rfl) bool_ne_null

theorem optDecode_i64 {x : Option Int} (h : wfOpt wfI64 x = true) :
    optDecode asI64 (optJson Json.num x) = .ok x := by
  refine optDecode_optJson (fun v hv => ?_) num_ne_null
  have hw := wfOpt_some h hv
  simp only [wfI64, Bool.and_eq_true, decide_eq_true_eq] at hw
  simp [asI64, hw.1, hw.2]

theorem optDecode_strList (x : Option (List String)) :
    optDecode asStringList (optJson strListToJson x) = .ok x :=
  optDecode_optJson (fun v _ => asStringList_rt v) strListToJson_ne_null

theorem optDecode_map {conv : Json → Except DeErr α} {f : α → Json}
    {x : Option (List (String × α))}
    (hconv : ∀ m, x = some m → ∀ kv ∈ m, conv (f kv.2) = .ok kv.2)
    (hs : ∀ m, x = some m → keysPairwiseB m = true) :
    optDecode (asMap conv) (optJson (mapToJson f) x) = .ok x :=
  optDecode_optJson (fun m hm => asMap_mapToJson (hconv m hm) (hs m hm))
    (mapToJson_ne_null f)

/-! ## Entity round trips -/

theorem maintainer_rt (m : Maintainer) :
    Maintainer.ofJson (Maintainer.toJson m) = .ok m := by
  simp only [Maintainer.toJson, Maintainer.ofJson, optField, reqField, jsonLookup,
    String.reduceEq, reduceIte]
  rw [optDecode_str, optDecode_str]
  rfl

theorem platform_rt (p : Platform) :
    Platform.ofJson (Platform.toJson p) = .ok p := by
  simp only [Platform.toJson, Platform.ofJson, optField, jsonLookup,
    String.reduceEq, reduceIte]
  rw [optDecode_str, optDecode_str]
  rfl

theorem destination_rt (d : Destination) :
    Destination.ofJson (Destination.toJson d) = .ok d := by
  simp only [Destination.toJson, Destination.ofJson, optField, jsonLookup,
    String.reduceEq, reduceIte]
  rw [optDecode_str, optDecode_str]
  rfl

theorem credential_rt (c : Credential) :
    Credential.ofJson (Credential.toJson c) = .ok c := by
  simp only [Credential.toJson, Credential.ofJson, optField, jsonLookup,
    String.reduceEq, reduceIte]
  rw [optDecode_str, optDecode_str, optDecode_str, optDecode_bool]
  rfl

theorem action_rt (a : Action) :
    Action.ofJson (Action.toJson a) = .ok a := by
  simp only [Action.toJson, Action.ofJson, optField, defBoolField, jsonLookup,
    String.reduceEq, reduceIte]
  rw [optDecode_str]
  rfl

theorem output_rt (o : Output) :
    Output.ofJson (Output.toJson o) = .ok o := by
  simp only [Output.toJson, Output.ofJson, optField, reqField, jsonLookup,
    String.reduceEq, reduceIte]
  rw [optDecode_strList, optDecode_str, optDecode_str]
  rfl

theorem parameter_rt (p : Parameter) :
    Parameter.ofJson (Parameter.toJson p) = .ok p := by
  simp only [Parameter.toJson, Parameter.ofJson, optField, reqField, jsonLookup,
    String.reduceEq, reduceIte]
  rw [optDecode_strList, optDecode_str, optDecode_str, destination_rt,
    optDecode_bool]
  rfl

theorem optDecode_platform (x : Option Platform) :
    optDecode Platform.ofJson (optJson Platform.toJson x) = .ok x :=
  optDecode_optJson (fun v _ => platform_rt v)
    (fun v => by unfold Platform.toJson; exact fun h => Json.noConfusion h)

theorem optDecode_strMap {x : Option (List (String × String))}
    (h : wfOpt keysPairwiseB x = true) :
    optDecode (asMap asString) (optJson (mapToJson Json.str) x) = .ok x :=
  optDecode_map (fun _ _ _ _ => rfl) (fun m hm => wfOpt_some h hm)

theorem image_rt {i : Image} (h : i.wf = true) :
    Image.ofJson (Image.toJson i) = .ok i := by
  simp only [Image.wf, Bool.and_eq_true] at h
  simp only [Image.toJson, Image.ofJson, optField, reqField, jsonLookup,
    String.reduceEq, reduceIte]
  rw [optDecode_str, optDecode_str, optDecode_str, optDecode_str,
    optDecode_platform, optDecode_i64 h.1, optDecode_strMap h.2]
  rfl

theorem invocation_image_rt {i : InvocationImage} (h : i.wf = true) :
    InvocationImage.ofJson (InvocationImage.toJson i) = .ok i := by
  simp only [InvocationImage.wf, Bool.and_eq_true] at h
  simp only [InvocationImage.toJson, InvocationImage.ofJson, optField, reqField,
    jsonLookup, String.reduceEq, reduceIte]
  rw [optDecode_str, optDecode_str, optDecode_str,
    optDecode_i64 h.1, optDecode_strMap h.2]
  rfl

theorem version_rt {v : Version} (h : wfVersion v = true) :
    versionOfJson (versionToJson v) = .ok v := by
  simp only [versionToJson, versionOfJson, semver_print_parse h]

theorem asList_arr_rt {conv : Json → Except DeErr α} {f : α → Json} {l : List α}
    (h : ∀ x ∈ l, conv (f x) = .ok x) :
    asList conv (Json.arr (l.map f)) = .ok l := by
  simp only [asList]
  exact mapMExcept_map_ok h

theorem optDecode_maintainers (x : Option (List Maintainer)) :
    optDecode (asList Maintainer.ofJson)
      (optJson (fun l => Json.arr (l.map Maintainer.toJson)) x) = .ok x :=
  optDecode_optJson (fun v _ => asList_arr_rt (fun m _ => maintainer_rt m))
    (fun v => fun h => Json.noConfusion h)

theorem bundle_rt {b : Bundle} (h : b.wf = true) :
    Bundle.ofJson (Bundle.toJson b) = .ok b := by
  simp only [Bundle.wf, Bool.and_eq_true] at h
  obtain ⟨⟨⟨⟨⟨⟨⟨⟨hact, hcred⟩, hcust⟩, hdefs⟩, himg⟩, hinv⟩, hout⟩, hpar⟩, hver⟩ := h
  simp only [Bundle.toJson, Bundle.ofJson, optField, reqField, jsonLookup,
    String.reduceEq, reduceIte]
  rw [optDecode_map (fun m _ kv _ => action_rt kv.2) (fun m hm => wfOpt_some hact hm),
    optDecode_map (fun m _ kv _ => credential_rt kv.2) (fun m hm => wfOpt_some hcred hm),
    optDecode_map (fun m _ kv _ => rfl) (fun m hm => wfOpt_some hcust hm),
    optDecode_map (fun m _ kv _ => rfl) (fun m hm => wfOpt_some hdefs hm),
    optDecode_str,
    optDecode_map (fun m hm kv hkv =>
        image_rt (by
          have hw := wfOpt_some himg hm
          simp only [Bool.and_eq_true, List.all_eq_true] at hw
          exact hw.2 kv hkv))
      (fun m hm => by
        have hw := wfOpt_some himg hm
        simp only [Bool.and_eq_true, List.all_eq_true] at hw
        exact hw.1),
    asList_arr_rt (fun i hi =>
      invocation_image_rt (List.all_eq_true.mp hinv i hi)),
    optDecode_strList, optDecode_str, optDecode_maintainers,
    optDecode_map (fun m _ kv _ => output_rt kv.2) (fun m hm => wfOpt_some hout hm),
    optDecode_map (fun m _ kv _ => parameter_rt kv.2) (fun m hm => wfOpt_some hpar hm),
    version_rt hver]
  rfl

/-! ## Success characterizations: what a successful parse pins down -/

theorem reqField_ok {fields : List (String × Json)} {key : String}
    {conv : Json → Except DeErr α} {a : α} (h : reqField fields key conv = .ok a) :
    ∃ j, jsonLookup key fields = some j ∧ conv j = .ok a := by
  unfold reqField at h
  rcases hl : jsonLookup key fields with _ | j
  · rw [hl] at h
    exact absurd h (by simp)
  · rw [hl] at h
    exact ⟨j, rfl, h⟩

theorem optField_none {fields : List (String × Json)} {key : String}
    (conv : Json → Except DeErr α) (h : jsonLookup key fields = none) :
    optField fields key conv = .ok none := by
  unfold optField
  rw [h]

theorem optField_some {fields : List (String × Json)} {key : String} {j : Json}
    (conv : Json → Except DeErr α) (h : jsonLookup key fields = some j) :
    optField fields key conv = optDecode conv j := by
  unfold optField
  rw [h]

theorem defBool_char {fields : List (String × Json)} {key : String} {t : Bool}
    (h : defBoolField fields key = .ok t) :
    (jsonLookup key fields = none ∧ t = false) ∨
      jsonLookup key fields = some (Json.bool t) := by
  unfold defBoolField at h
  rcases hl : jsonLookup key fields with _ | j
  · rw [hl] at h
    left
    refine ⟨rfl, ?_⟩
    have := Except.ok.inj h
    exact this.symm
  · rw [hl] at h
    right
    cases j with
    | bool b =>
      have : b = t := Except.ok.inj h
      subst this
      rfl
    | null => exact absurd h (by simp [asBool])
    | num n => exact absurd h (by simp [asBool])
    | str s => exact absurd h (by simp [asBool])
    | arr l => exact absurd h (by simp [asBool])
    | obj l => exact absurd h (by simp [asBool])

theorem optBool_char {fields : List (String × Json)} {key : String} {r : Option Bool}
    (h : optField fields key asBool = .ok r) :
    (jsonLookup key fields = none ∧ r = none) ∨
      (jsonLookup key fields = some Json.null ∧ r = none) ∨
      (∃ t, jsonLookup key fields = some (Json.bool t) ∧ r = some t) := by
  unfold optField at h
  rcases hl : jsonLookup key fields with _ | j
  · rw [hl] at h
    exact Or.inl ⟨rfl, (Except.ok.inj h).symm⟩
  · rw [hl] at h
    cases j with
    | null => exact Or.inr (Or.inl ⟨rfl, (Except.ok.inj h).symm⟩)
    | bool b =>
      refine Or.inr (Or.inr ⟨b, rfl, ?_⟩)
      have : (asBool (Json.bool b)).map some = .ok r := h
      exact (Except.ok.inj this).symm
    | num n => exact absurd h (by simp [optDecode, asBool, Except.map])
    | str s => exact absurd h (by simp [optDecode, asBool, Except.map])
    | arr l => exact absurd h (by simp [optDecode, asBool, Except.map])
    | obj l => exact absurd h (by simp [optDecode, asBool, Except.map])

theorem action_ok_fields {fields : List (String × Json)} {a : Action}
    (h : Action.ofJson (.obj fields) = .ok a) :
    optField fields "description" asString = .ok a.description ∧
      defBoolField fields "modifies" = .ok a.modifies ∧
      defBoolField fields "stateless" = .ok a.stateless := by
  simp only [Action.ofJson] at h
  obtain ⟨a1, h1, h⟩ := exBind_elim h
  obtain ⟨a2, h2, h⟩ := exBind_elim h
  obtain ⟨a3, h3, h⟩ := exBind_elim h
  have hb : (⟨a1, a2, a3⟩ : Action) = a := Except.ok.inj h
  subst hb
  exact ⟨h1, h2, h3⟩

theorem credential_ok_fields {fields : List (String × Json)} {c : Credential}
    (h : Credential.ofJson (.obj fields) = .ok c) :
    optField fields "description" asString = .ok c.description ∧
      optField fields "env" asString = .ok c.env ∧
      optField fields "path" asString = .ok c.path ∧
      optField fields "required" asBool = .ok c.required := by
  simp only [Credential.ofJson] at h
  obtain ⟨a1, h1, h⟩ := exBind_elim h
  obtain ⟨a2, h2, h⟩ := exBind_elim h
  obtain ⟨a3, h3, h⟩ := exBind_elim h
  obtain ⟨a4, h4, h⟩ := exBind_elim h
  have hb : (⟨a1, a2, a3, a4⟩ : Credential) = c := Except.ok.inj h
  subst hb
  exact ⟨h1, h2, h3, h4⟩

theorem parameter_ok_fields {fields : List (String × Json)} {p : Parameter}
    (h : Parameter.ofJson (.obj fields) = .ok p) :
    optField fields "applyTo" asStringList = .ok p.apply_to ∧
      optField fields "definition" asString = .ok p.definition ∧
      optField fields "description" asString = .ok p.description ∧
      reqField fields "destination" Destination.ofJson = .ok p.destination ∧
      optField fields "required" asBool = .ok p.required := by
  simp only [Parameter.ofJson] at h
  obtain ⟨a1, h1, h⟩ := exBind_elim h
  obtain ⟨a2, h2, h⟩ := exBind_elim h
  obtain ⟨a3, h3, h⟩ := exBind_elim h
  obtain ⟨a4, h4, h⟩ := exBind_elim h
  obtain ⟨a5, h5, h⟩ := exBind_elim h
  have hb : (⟨a1, a2, a3, a4, a5⟩ : Parameter) = p := Except.ok.inj h
  subst hb
  exact ⟨h1, h2, h3, h4, h5⟩

theorem image_ok_fields {fields : List (String × Json)} {i : Image}
    (h : Image.ofJson (.obj fields) = .ok i) :
    reqField fields "image" asString = .ok i.image ∧
      optField fields "size" asI64 = .ok i.size := by
  simp only [Image.ofJson] at h
  obtain ⟨a1, h1, h⟩ := exBind_elim h
  obtain ⟨a2, h2, h⟩ := exBind_elim h
  obtain ⟨a3, h3, h⟩ := exBind_elim h
  obtain ⟨a4, h4, h⟩ := exBind_elim h
  obtain ⟨a5, h5, h⟩ := exBind_elim h
  obtain ⟨a6, h6, h⟩ := exBind_elim h
  obtain ⟨a7, h7, h⟩ := exBind_elim h
  obtain ⟨a8, h8, h⟩ := exBind_elim h
  have hb : (⟨a1, a2, a3, a4, a5, a6, a7, a8⟩ : Image) = i := Except.ok.inj h
  subst hb
  exact ⟨h3, h7⟩

theorem invocation_image_ok_fields {fields : List (String × Json)} {i : InvocationImage}
    (h : InvocationImage.ofJson (.obj fields) = .ok i) :
    reqField fields "image" asString = .ok i.image ∧
      optField fields "size" asI64 = .ok i.size := by
  simp only [InvocationImage.ofJson] at h
  obtain ⟨a1, h1, h⟩ := exBind_elim h
  obtain ⟨a2, h2, h⟩ := exBind_elim h
  obtain ⟨a3, h3, h⟩ := exBind_elim h
  obtain ⟨a4, h4, h⟩ := exBind_elim h
  obtain ⟨a5, h5, h⟩ := exBind_elim h
  obtain ⟨a6, h6, h⟩ := exBind_elim h
  have hb : (⟨a1, a2, a3, a4, a5, a6⟩ : InvocationImage) = i := Except.ok.inj h
  subst hb
  exact ⟨h2, h5⟩

theorem bundle_ok_fields {fields : List (String × Json)} {b : Bundle}
    (h : Bundle.ofJson (.obj fields) = .ok b) :
    optField fields "actions" (asMap Action.ofJson) = .ok b.actions ∧
      optField fields "credentials" (asMap Credential.ofJson) = .ok b.credentials ∧
      optField fields "custom" (asMap Except.ok) = .ok b.custom ∧
      optField fields "definitions" (asMap Except.ok) = .ok b.definitions ∧
      optField fields "description" asString = .ok b.description ∧
      optField fields "images" (asMap Image.ofJson) = .ok b.images ∧
      reqField fields "invocationImages" (asList InvocationImage.ofJson)
        = .ok b.invocation_images ∧
      optField fields "keywords" asStringList = .ok b.keywords ∧
      optField fields "license" asString = .ok b.license ∧
      optField fields "maintainers" (asList Maintainer.ofJson) = .ok b.maintainers ∧
      reqField fields "name" asString = .ok b.name ∧
      optField fields "outputs" (asMap Output.ofJson) = .ok b.outputs ∧
      optField fields "parameters" (asMap Parameter.ofJson) = .ok b.parameters ∧
      reqField fields "schemaVersion" asString = .ok b.schema_version ∧
      reqField fields "version" versionOfJson = .ok b.version := by
  simp only [Bundle.ofJson] at h
  obtain ⟨a1, h1, h⟩ := exBind_elim h
  obtain ⟨a2, h2, h⟩ := exBind_elim h
  obtain ⟨a3, h3, h⟩ := exBind_elim h
  obtain ⟨a4, h4, h⟩ := exBind_elim h
  obtain ⟨a5, h5, h⟩ := exBind_elim h
  obtain ⟨a6, h6, h⟩ := exBind_elim h
  obtain ⟨a7, h7, h⟩ := exBind_elim h
  obtain ⟨a8, h8, h⟩ := exBind_elim h
  obtain ⟨a9, h9, h⟩ := exBind_elim h
  obtain ⟨a10, h10, h⟩ := exBind_elim h
  obtain ⟨a11, h11, h⟩ := exBind_elim h
  obtain ⟨a12, h12, h⟩ := exBind_elim h
  obtain ⟨a13, h13, h⟩ := exBind_elim h
  obtain ⟨a14, h14, h⟩ := exBind_elim h
  obtain ⟨a15, h15, h⟩ := exBind_elim h
  have hb : (⟨a1, a2, a3, a4, a5, a6, a7, a8, a9, a10, a11, a12, a13, a14, a15⟩
      : Bundle) = b := Except.ok.inj h
  subst hb
  exact ⟨h1, h2, h3, h4, h5, h6, h7, h8, h9, h10, h11, h12, h13, h14, h15⟩

theorem versionOfJson_str_ok {s : String} {v : Version}
    (h : versionOfJson (.str s) = .ok v) : semverParse s = some v := by
  simp only [versionOfJson] at h
  rcases hp : semverParse s with _ | w
  · rw [hp] at h
    exact absurd h (by simp)
  · rw [hp] at h
    rw [Except.ok.inj h]

theorem optI64_char {fields : List (String × Json)} {key : String} {r : Option Int}
    (h : optField fields key asI64 = .ok r) :
    ∀ n, r = some n → i64Min ≤ n ∧ n ≤ i64Max := by
  intro n hn
  subst hn
  rcases hl : jsonLookup key fields with _ | j
  · rw [optField_none asI64 hl] at h
    exact absurd (Except.ok.inj h) (by simp)
  · rw [optField_some asI64 hl] at h
    cases j with
    | num m =>
      by_cases hr : i64Min ≤ m ∧ m ≤ i64Max
      · have : (Except.ok (some m) : Except DeErr (Option Int)) = .ok (some n) := by
          rw [← h]
          simp [optDecode, asI64, hr, Except.map]
        have hmn : m = n := by simpa using Except.ok.inj this
        subst hmn
        exact hr
      · exact absurd h (by simp [optDecode, asI64, hr, Except.map])
    | null => exact absurd (Except.ok.inj h) (by simp)
    | bool b => exact absurd h (by simp [optDecode, asI64, Except.map])
    | str s => exact absurd h (by simp [optDecode, asI64, Except.map])
    | arr l => exact absurd h (by simp [optDecode, asI64, Except.map])
    | obj l => exact absurd h (by simp [optDecode, asI64, Except.map])

theorem optI64_num {fields : List (String × Json)} {key : String} {r : Option Int}
    {n : Int} (h : optField fields key asI64 = .ok r)
    (hl : jsonLookup key fields = some (Json.num n)) : r = some n := by
  rw [optField_some asI64 hl] at h
  by_cases hr : i64Min ≤ n ∧ n ≤ i64Max
  · have : (Except.ok (some n) : Except DeErr (Option Int)) = .ok r := by
      rw [← h]
      simp [optDecode, asI64, hr, Except.map]
    exact (Except.ok.inj this).symm
  · exact absurd h (by simp [optDecode, asI64, hr, Except.map])

/-! ## Unknown top-level keys are ignored -/

/-- The complete set of wire keys the Bundle deserializer consults. -/
def bundleWireKeys : List String :=
  ["actions", "credentials", "custom", "definitions", "description", "images",
   "invocationImages", "keywords", "license", "maintainers", "name", "outputs",
   "parameters", "schemaVersion", "version"]

theorem jsonLookup_append_ne {key k : String} {v : Json} {fields : List (String × Json)}
    (h : key ≠ k) : jsonLookup key (fields ++ [(k, v)]) = jsonLookup key fields := by
  induction fields with
  | nil =>
    simp only [List.nil_append, jsonLookup]
    rw [if_neg (fun hh => h hh.symm)]
  | cons kv rest ih =>
    obtain ⟨k2, v2⟩ := kv
    simp only [List.cons_append, jsonLookup]
    by_cases hk2 : k2 = key
    · rw [if_pos hk2, if_pos hk2]
    · rw [if_neg hk2, if_neg hk2]
      exact ih

theorem optField_append {key k : String} {v : Json} {fields : List (String × Json)}
    (conv : Json → Except DeErr α) (h : key ≠ k) :
    optField (fields ++ [(k, v)]) key conv = optField fields key conv := by
  unfold optField
  rw [jsonLookup_append_ne h]

theorem reqField_append {key k : String} {v : Json} {fields : List (String × Json)}
    (conv : Json → Except DeErr α) (h : key ≠ k) :
    reqField (fields ++ [(k, v)]) key conv = reqField fields key conv := by
  unfold reqField
  rw [jsonLookup_append_ne h]

theorem bundle_ofJson_append {fields : List (String × Json)} {k : String} {v : Json}
    (hne : ∀ key ∈ bundleWireKeys, key ≠ k) :
    Bundle.ofJson (.obj (fields ++ [(k, v)])) = Bundle.ofJson (.obj fields) := by
  have e1 := @optField_append _ _ k v fields (asMap Action.ofJson)
    (hne "actions" (by simp [bundleWireKeys]))
  have e2 := @optField_append _ _ k v fields (asMap Credential.ofJson)
    (hne "credentials" (by simp [bundleWireKeys]))
  have e3 := @optField_append _ _ k v fields (asMap Except.ok)
    (hne "custom" (by simp [bundleWireKeys]))
  have e4 := @optField_append _ _ k v fields (asMap Except.ok)
    (hne "definitions" (by simp [bundleWireKeys]))
  have e5 := @optField_append _ _ k v fields asString
    (hne "description" (by simp [bundleWireKeys]))
  have e6 := @optField_append _ _ k v fields (asMap Image.ofJson)
    (hne "images" (by simp [bundleWireKeys]))
  have e7 := @reqField_append _ _ k v fields (asList InvocationImage.ofJson)
    (hne "invocationImages" (by simp [bundleWireKeys]))
  have e8 := @optField_append _ _ k v fields asStringList
    (hne "keywords" (by simp [bundleWireKeys]))
  have e9 := @optField_append _ _ k v fields asString
    (hne "license" (by simp [bundleWireKeys]))
  have e10 := @optField_append _ _ k v fields (asList Maintainer.ofJson)
    (hne "maintainers" (by simp [bundleWireKeys]))
  have e11 := @reqField_append _ _ k v fields asString
    (hne "name" (by simp [bundleWireKeys]))
  have e12 := @optField_append _ _ k v fields (asMap Output.ofJson)
    (hne "outputs" (by simp [bundleWireKeys]))
  have e13 := @optField_append _ _ k v fields (asMap Parameter.ofJson)
    (hne "parameters" (by simp [bundleWireKeys]))
  have e14 := @reqField_append _ _ k v fields asString
    (hne "schemaVersion" (by simp [bundleWireKeys]))
  have e15 := @reqField_append _ _ k v fields versionOfJson
    (hne "version" (by simp [bundleWireKeys]))
  simp only [Bundle.ofJson, e1, e2, e3, e4, e5, e6, e7, e8, e9, e10, e11, e12,
    e13, e14, e15]

/-! ## Serialized field order -/

/-- The wire keys of a serialized JSON object, in emission order. -/
def jsonKeys : Json → List String
  | .obj fields => fields.map Prod.fst
  | _ => []

/-- Lexicographic comparison of character lists by code point — the
order Rust's byte-wise `Ord` on `String` induces on UTF-8 text. -/
def charListLt : List Char → List Char → Bool
  | [], [] => false
  | [], _ :: _ => true
  | _ :: _, [] => false
  | a :: as, b :: bs =>
    if a.toNat < b.toNat then true
    else if b.toNat < a.toNat then false
    else charListLt as bs

def strLtB (a b : String) : Bool := charListLt a.data b.data

/-- Adjacent-pairs check that a key list is weakly ascending in the
lexicographic string order (the order `BTreeMap` uses). -/
def strSortedB : List String → Bool
  | [] => true
  | [_] => true
  | a :: b :: rest => !strLtB b a && strSortedB (b :: rest)

/-! ## The writer/reader pair is a round trip on printable trees -/

theorem dropWhile_ws_of {c : Char} (X : List Char) (h : jsonWs c = false) :
    List.dropWhile jsonWs (c :: X) = c :: X := by
  simp [List.dropWhile_cons, h]

theorem parseStringBody_escape :
    ∀ {s : List Char}, (∀ c ∈ s, printableChar c = true) → ∀ rest : List Char,
      parseStringBody (escapeChars s ++ '"' :: rest) = some (s, rest) := by
  intro s
  induction s with
  | nil =>
    intro _ rest
    rfl
  | cons c cs ih =>
    intro h rest
    have hc := h c (by simp)
    have ihr := ih (fun x hx => h x (by simp [hx])) rest
    simp only [escapeChars, escapeChar, List.append_assoc]
    by_cases h1 : c = '"'
    · subst h1
      rw [if_pos rfl]
      simp only [List.cons_append, List.nil_append]
      simp [parseStringBody, unescape, ihr]
    · rw [if_neg h1]
      by_cases h2 : c = '\\'
      · subst h2
        rw [if_pos rfl]
        simp only [List.cons_append, List.nil_append]
        simp [parseStringBody, unescape, ihr]
      · rw [if_neg h2]
        by_cases h3 : c = '\n'
        · subst h3
          rw [if_pos rfl]
          simp only [List.cons_append, List.nil_append]
          simp [parseStringBody, unescape, ihr]
        · rw [if_neg h3]
          by_cases h4 : c = '\t'
          · subst h4
            rw [if_pos rfl]
            simp only [List.cons_append, List.nil_append]
            simp [parseStringBody, unescape, ihr]
          · rw [if_neg h4]
            by_cases h5 : c = '\r'
            · subst h5
              rw [if_pos rfl]
              simp only [List.cons_append, List.nil_append]
              simp [parseStringBody, unescape, ihr]
            · rw [if_neg h5]
              by_cases h6 : c.toNat = 8
              · rw [if_pos h6]
                have hcc : c = Char.ofNat 8 := by
                  rw [← h6, Char.ofNat_toNat]
                subst hcc
                simp only [List.cons_append, List.nil_append]
                simp [parseStringBody, unescape, ihr]
              · rw [if_neg h6]
                by_cases h7 : c.toNat = 12
                · rw [if_pos h7]
                  have hcc : c = Char.ofNat 12 := by
                    rw [← h7, Char.ofNat_toNat]
                  subst hcc
                  simp only [List.cons_append, List.nil_append]
                  simp [parseStringBody, unescape, ihr]
                · rw [if_neg h7]
                  have h32 : 32 ≤ c.toNat := by
                    simp only [printableChar, Bool.or_eq_true, decide_eq_true_eq] at hc
                    rcases hc with ((((hx | hx) | hx) | hx) | hx) | hx
                    · exact hx
                    · exact absurd hx h3
                    · exact absurd hx h4
                    · exact absurd hx h5
                    · exact absurd hx h6
                    · exact absurd hx h7
                  have hlt : ¬ (c.toNat < 32) := by omega
                  simp only [List.singleton_append]
                  rcases hE : escapeChars cs ++ '"' :: rest with _ | ⟨d, ds⟩
                  · exact absurd hE (by simp)
                  · rw [hE] at ihr
                    simp [parseStringBody, h1, h2, hlt, ihr]

theorem parseNumLit_print {m : Nat} (hm : m < u64Bound) (neg : Bool) {rest : List Char}
    (hrest : ∀ c, rest.head? = some c →
      isDigitChar c = false ∧ isFloatStart (some c) = false) :
    parseNumLit neg (natChars m ++ rest)
      = .ok (.num (if neg then -(m : Int) else (m : Int)), rest) := by
  unfold parseNumLit
  rw [takeWhile_append_all (natChars_all_digit m) (fun c hc => (hrest c hc).1),
    dropWhile_append_all (natChars_all_digit m) (fun c hc => (hrest c hc).1)]
  rw [natChars_ne_nil m, natChars_no_lead m]
  have hfl : isFloatStart rest.head? = false := by
    cases hh : rest.head? with
    | none => rfl
    | some c => exact (hrest c hh).2
  rw [hfl]
  simp [digitsVal_natChars m, hm]

theorem natChars_mem {n : Nat} {c : Char} (h : c ∈ natChars n) :
    ∃ d, d < 10 ∧ c = digitChar d := by
  unfold natChars at h
  by_cases h0 : n = 0
  · simp [h0] at h
    exact ⟨0, by omega, by rw [h]; rfl⟩
  · rw [if_neg h0, List.mem_reverse] at h
    obtain ⟨d, hd, rfl⟩ := List.mem_map.mp h
    exact ⟨d, Nat.digits_lt_base (by norm_num) hd, rfl⟩

theorem digitChar_facts {d : Nat} (h : d < 10) :
    jsonWs (digitChar d) = false ∧ (digitChar d = ']') = False ∧
      (digitChar d = '}') = False ∧ isDigitChar (digitChar d) = true ∧
      (digitChar d = '"') = False ∧ (digitChar d = '-') = False ∧
      (digitChar d = '[') = False ∧ (digitChar d = '{') = False := by
  interval_cases d <;> exact (by decide)

theorem printVal_shape (j : Json) :
    ∃ c t, printVal j = c :: t ∧ jsonWs c = false ∧ c ≠ ']' ∧ c ≠ '}' := by
  cases j with
  | null => exact ⟨'n', ['u', 'l', 'l'], by simp [printVal], by decide, by decide, by decide⟩
  | bool b => cases b with
    | true => exact ⟨'t', ['r', 'u', 'e'], by simp [printVal], by decide, by decide, by decide⟩
    | false =>
      exact ⟨'f', ['a', 'l', 's', 'e'], by simp [printVal], by decide, by decide, by decide⟩
  | num n =>
    by_cases hneg : n < 0
    · exact ⟨'-', natChars n.natAbs, by simp [printVal, intChars, hneg], by decide,
        by decide, by decide⟩
    · rcases hnc : natChars n.natAbs with _ | ⟨c, t⟩
      · exact absurd (natChars_ne_nil n.natAbs) (by simp [hnc])
      · have hc : c ∈ natChars n.natAbs := by
          rw [hnc]
          simp
        obtain ⟨d, hd, rfl⟩ := natChars_mem hc
        obtain ⟨hws, hrb, hcb, _, _, _, _, _⟩ := digitChar_facts hd
        refine ⟨digitChar d, t, by simp [printVal, intChars, hneg, hnc], hws, ?_, ?_⟩
        · simpa using hrb
        · simpa using hcb
  | str s =>
    exact ⟨'"', escapeChars s.data ++ ['"'], by simp [printVal], by decide, by decide,
      by decide⟩
  | arr l =>
    cases l with
    | nil => exact ⟨'[', [']'], by simp [printVal], by decide, by decide, by decide⟩
    | cons x xs =>
      exact ⟨'[', printItems x xs ++ [']'], by simp [printVal], by decide, by decide,
        by decide⟩
  | obj l =>
    cases l with
    | nil => exact ⟨'{', ['}'], by simp [printVal], by decide, by decide, by decide⟩
    | cons kv xs =>
      obtain ⟨k, v⟩ := kv
      exact ⟨'{', printMembers k v xs ++ ['}'], by simp [printVal], by decide, by decide,
        by decide⟩

theorem printItems_eq (x : Json) (xs : List Json) :
    ∃ r, printItems x xs = printVal x ++ r := by
  cases xs with
  | nil => exact ⟨[], by simp [printItems]⟩
  | cons y ys => exact ⟨',' :: printItems y ys, by simp [printItems]⟩

theorem fuelVal_pos (j : Json) : 1 ≤ fuelVal j := by
  cases j with
  | null => simp [fuelVal]
  | bool b => simp [fuelVal]
  | num n => simp [fuelVal]
  | str s => simp [fuelVal]
  | arr l =>
    cases l with
    | nil => simp [fuelVal]
    | cons x xs => simp [fuelVal]
  | obj l =>
    cases l with
    | nil => simp [fuelVal]
    | cons kv xs =>
      obtain ⟨k, v⟩ := kv
      simp [fuelVal]

theorem fuelArr_pos (x : Json) (xs : List Json) : 1 ≤ fuelArr x xs := by
  cases xs with
  | nil => simp [fuelArr]
  | cons y ys => simp [fuelArr]

theorem fuelObj_pos (k : String) (v : Json) (xs : List (String × Json)) :
    1 ≤ fuelObj k v xs := by
  cases xs with
  | nil => simp [fuelObj]
  | cons kv ys =>
    obtain ⟨k2, v2⟩ := kv
    simp [fuelObj]

theorem parse_print : ∀ fuel : Nat,
    (∀ j rest, jsonPrintable j = true → fuelVal j ≤ fuel →
      (∀ c, rest.head? = some c → isDigitChar c = false ∧ isFloatStart (some c) = false) →
      parseVal fuel (printVal j ++ rest) = .ok (j, rest)) ∧
    (∀ x xs rest, jsonPrintable (.arr (x :: xs)) = true → fuelArr x xs ≤ fuel →
      parseArrItems fuel (printItems x xs ++ ']' :: rest) = .ok (x :: xs, rest)) ∧
    (∀ k v xs rest, jsonPrintable (.obj ((k, v) :: xs)) = true → fuelObj k v xs ≤ fuel →
      parseObjItems fuel (printMembers k v xs ++ '}' :: rest) = .ok ((k, v) :: xs, rest)) := by
  intro fuel
  induction fuel with
  | zero =>
    refine ⟨fun j rest _ hf _ => ?_, fun x xs rest _ hf => ?_,
      fun k v xs rest _ hf => ?_⟩
    · exact absurd hf (by have := fuelVal_pos j; omega)
    · exact absurd hf (by have := fuelArr_pos x xs; omega)
    · exact absurd hf (by have := fuelObj_pos k v xs; omega)
  | succ fuel ih =>
    obtain ⟨ihV, ihA, ihO⟩ := ih
    refine ⟨fun j rest hp hf hrest => ?_, fun x xs rest hp hf => ?_,
      fun k v xs rest hp hf => ?_⟩
    · cases j with
      | null =>
        simp only [printVal, List.cons_append, List.nil_append]
        rfl
      | bool b =>
        cases b with
        | true =>
          simp only [printVal, List.cons_append, List.nil_append]
          rfl
        | false =>
          simp only [printVal, List.cons_append, List.nil_append]
          rfl
      | num n =>
        have hm : n.natAbs < u64Bound := by simpa [jsonPrintable] using hp
        by_cases hneg : n < 0
        · simp only [printVal, intChars, if_pos hneg, List.cons_append]
          have hstep : parseVal (fuel + 1) ('-' :: (natChars n.natAbs ++ rest))
              = parseNumLit true (natChars n.natAbs ++ rest) := by
            simp [parseVal, dropWhile_ws_of _ (by decide : jsonWs '-' = false)]
          rw [hstep, parseNumLit_print hm true hrest, if_pos rfl]
          have hval : -((n.natAbs : Nat) : Int) = n := by omega
          rw [hval]
        · simp only [printVal, intChars, if_neg hneg]
          rcases hnc : natChars n.natAbs with _ | ⟨c, t⟩
          · exact absurd (natChars_ne_nil n.natAbs) (by simp [hnc])
          · have hcm : c ∈ natChars n.natAbs := by
              rw [hnc]
              simp
            obtain ⟨d, hd, rfl⟩ := natChars_mem hcm
            obtain ⟨hws, _, _, hdig, hq, hdash, hlb, hob⟩ := digitChar_facts hd
            simp only [List.cons_append]
            have hstep : parseVal (fuel + 1) (digitChar d :: (t ++ rest))
                = parseNumLit false (digitChar d :: (t ++ rest)) := by
              simp [parseVal, dropWhile_ws_of _ hws, hq, hdash, hdig, hlb, hob]
            rw [hstep, ← List.cons_append, ← hnc, parseNumLit_print hm false hrest,
              if_neg (by simp)]
            have hval : ((n.natAbs : Nat) : Int) = n := by omega
            rw [hval]
      | str s =>
        have hps : ∀ c ∈ s.data, printableChar c = true := by
          simpa [jsonPrintable, printableStr, List.all_eq_true] using hp
        simp only [printVal, List.cons_append, List.append_assoc, List.singleton_append]
        simp [parseVal, dropWhile_ws_of _ (by decide : jsonWs '"' = false),
          parseStringBody_escape hps, strMkData]
      | arr l =>
        cases l with
        | nil =>
          simp only [printVal, List.cons_append, List.nil_append]
          rfl
        | cons x xs =>
          obtain ⟨hpx, hpxs⟩ : jsonPrintable x = true ∧ listPrintable xs = true := by
            simpa [jsonPrintable, listPrintable, Bool.and_eq_true] using hp
          have hfa : fuelArr x xs ≤ fuel := by
            have heq : fuelVal (Json.arr (x :: xs)) = 1 + fuelArr x xs := by
              simp [fuelVal]
            omega
          have harr := ihA x xs rest
            (by simp [jsonPrintable, listPrintable, hpx, hpxs]) hfa
          obtain ⟨c0, t0, hpi0, hws0, hnb0, hnc0⟩ :
              ∃ c t, printItems x xs = c :: t ∧ jsonWs c = false ∧ c ≠ ']' ∧ c ≠ '}' := by
            obtain ⟨r, hr⟩ := printItems_eq x xs
            obtain ⟨c, t, hshape, hws, hb1, hb2⟩ := printVal_shape x
            exact ⟨c, t ++ r, by rw [hr, hshape]; simp, hws, hb1, hb2⟩
          simp only [printVal, List.cons_append, List.append_assoc]
          rw [hpi0] at harr ⊢
          simp only [List.cons_append]
          have hbeq : (some c0 == some ']') = false := by
            simp [hnb0]
          simp [parseVal, List.dropWhile_cons, jsonWs, isDigitChar,
            dropWhile_ws_of _ hws0, hbeq]
          rw [List.cons_append] at harr
          rw [harr]
      | obj l =>
        cases l with
        | nil =>
          simp only [printVal, List.cons_append, List.nil_append]
          rfl
        | cons kv xs =>
          obtain ⟨k, v⟩ := kv
          obtain ⟨hpk, hpv, hpxs⟩ :
              printableStr k = true ∧ jsonPrintable v = true
                ∧ membersPrintable xs = true := by
            have := hp
            simp only [jsonPrintable, membersPrintable, Bool.and_eq_true] at this
            exact ⟨this.1.1, this.1.2, this.2⟩
          have hfo : fuelObj k v xs ≤ fuel := by
            have heq : fuelVal (Json.obj ((k, v) :: xs)) = 1 + fuelObj k v xs := by
              simp [fuelVal]
            omega
          have hobj := ihO k v xs rest
            (by simp [jsonPrintable, membersPrintable, hpk, hpv, hpxs]) hfo
          have hpm0 : ∃ t, printMembers k v xs = '"' :: t := by
            cases xs with
            | nil =>
              exact ⟨escapeChars k.data ++ '"' :: ':' :: printVal v,
                by simp [printMembers]⟩
            | cons kv2 xs2 =>
              obtain ⟨k2, v2⟩ := kv2
              exact ⟨(escapeChars k.data ++ '"' :: ':' :: printVal v)
                  ++ ',' :: printMembers k2 v2 xs2,
                by simp [printMembers]⟩
          obtain ⟨t0, hpm⟩ := hpm0
          simp only [printVal, List.cons_append, List.append_assoc]
          rw [hpm] at hobj ⊢
          simp only [List.cons_append]
          simp [parseVal, List.dropWhile_cons, jsonWs, isDigitChar]
          rw [List.cons_append] at hobj
          rw [hobj]
    · cases xs with
      | nil =>
        have hpx : jsonPrintable x = true := by
          simpa [jsonPrintable, listPrintable] using hp
        have hfx : fuelVal x ≤ fuel := by
          have heq : fuelArr x [] = 1 + fuelVal x := by simp [fuelArr]
          omega
        have hv := ihV x (']' :: rest) hpx hfx
          (by intro c hc; simp at hc; subst hc; decide)
        simp only [printItems]
        simp [parseArrItems, List.dropWhile_cons, jsonWs, hv]
      | cons y ys =>
        obtain ⟨hpx, hpy, hpys⟩ :
            jsonPrintable x = true ∧ jsonPrintable y = true
              ∧ listPrintable ys = true := by
          have := hp
          simp only [jsonPrintable, listPrintable, Bool.and_eq_true] at this
          exact ⟨this.1, this.2.1, this.2.2⟩
        have hfb : fuelVal x ≤ fuel ∧ fuelArr y ys ≤ fuel := by
          have heq : fuelArr x (y :: ys) = 1 + max (fuelVal x) (fuelArr y ys) := by
            simp [fuelArr]
          have hmax : max (fuelVal x) (fuelArr y ys) ≤ fuel := by omega
          exact ⟨le_trans (Nat.le_max_left _ _) hmax,
            le_trans (Nat.le_max_right _ _) hmax⟩
        have hv := ihV x (',' :: (printItems y ys ++ ']' :: rest)) hpx hfb.1
          (by intro c hc; simp at hc; subst hc; decide)
        have ha := ihA y ys rest
          (by simp [jsonPrintable, listPrintable, hpy, hpys]) hfb.2
        simp only [printItems, List.cons_append, List.append_assoc]
        simp [parseArrItems, List.dropWhile_cons, jsonWs, hv, ha]
    · obtain ⟨hpk, hpv, hpxs⟩ :
          printableStr k = true ∧ jsonPrintable v = true
            ∧ membersPrintable xs = true := by
        have := hp
        simp only [jsonPrintable, membersPrintable, Bool.and_eq_true] at this
        exact ⟨this.1.1, this.1.2, this.2⟩
      have hk : ∀ c ∈ k.data, printableChar c = true := by
        simpa [printableStr, List.all_eq_true] using hpk
      cases xs with
      | nil =>
        have hfv : fuelVal v ≤ fuel := by
          have heq : fuelObj k v [] = 1 + fuelVal v := by simp [fuelObj]
          omega
        have hv := ihV v ('}' :: rest) hpv hfv
          (by intro c hc; simp at hc; subst hc; decide)
        simp only [printMembers, List.cons_append, List.append_assoc]
        simp [parseObjItems, List.dropWhile_cons, jsonWs,
          parseStringBody_escape hk, hv, strMkData]
      | cons kv2 xs2 =>
        obtain ⟨k2, v2⟩ := kv2
        obtain ⟨hpk2, hpv2, hpxs2⟩ :
            printableStr k2 = true ∧ jsonPrintable v2 = true
              ∧ membersPrintable xs2 = true := by
          have := hpxs
          simp only [membersPrintable, Bool.and_eq_true] at this
          exact ⟨this.1.1, this.1.2, this.2⟩
        have hfb : fuelVal v ≤ fuel ∧ fuelObj k2 v2 xs2 ≤ fuel := by
          have heq : fuelObj k v ((k2, v2) :: xs2)
              = 1 + max (fuelVal v) (fuelObj k2 v2 xs2) := by
            simp [fuelObj]
          have hmax : max (fuelVal v) (fuelObj k2 v2 xs2) ≤ fuel := by omega
          exact ⟨le_trans (Nat.le_max_left _ _) hmax,
            le_trans (Nat.le_max_right _ _) hmax⟩
        have hv := ihV v (',' :: (printMembers k2 v2 xs2 ++ '}' :: rest)) hpv hfb.1
          (by intro c hc; simp at hc; subst hc; decide)
        have ho := ihO k2 v2 xs2 rest
          (by simp [jsonPrintable, membersPrintable, hpk2, hpv2, hpxs2]) hfb.2
        simp only [printMembers, List.cons_append, List.append_assoc]
        simp [parseObjItems, List.dropWhile_cons, jsonWs,
          parseStringBody_escape hk, hv, ho, strMkData]

theorem json_sizeOf_pos (j : Json) : 1 ≤ sizeOf j := by
  cases j <;> simp <;> omega

theorem fuel_le_aux : ∀ n : Nat,
    (∀ j : Json, sizeOf j < n → fuelVal j ≤ (printVal j).length) ∧
    (∀ (x : Json) (xs : List Json), sizeOf x + sizeOf xs < n →
      fuelArr x xs ≤ (printItems x xs).length + 1) ∧
    (∀ (k : String) (v : Json) (xs : List (String × Json)), sizeOf v + sizeOf xs < n →
      fuelObj k v xs ≤ (printMembers k v xs).length + 1) := by
  intro n
  induction n with
  | zero =>
    refine ⟨fun j h => absurd h (by omega), fun x xs h => ?_, fun k v xs h => ?_⟩
    · exact absurd h (by have := json_sizeOf_pos x; omega)
    · exact absurd h (by have := json_sizeOf_pos v; omega)
  | succ n ih =>
    obtain ⟨ihV, ihA, ihO⟩ := ih
    refine ⟨fun j hs => ?_, fun x xs hs => ?_, fun k v xs hs => ?_⟩
    · match j with
      | .null => simp [fuelVal, printVal]
      | .bool b => cases b <;> simp [fuelVal, printVal]
      | .num m =>
        have hnn := natChars_ne_nil m.natAbs
        have hlen : 1 ≤ (natChars m.natAbs).length := by
          cases hq : natChars m.natAbs with
          | nil => rw [hq] at hnn; simp [List.isEmpty] at hnn
          | cons a t => simp
        simp only [fuelVal, printVal, intChars]
        by_cases hneg : m < 0 <;> simp [hneg] <;> omega
      | .str t => simp [fuelVal, printVal]
      | .arr [] => simp [fuelVal, printVal]
      | .arr (x :: xs) =>
        have h1 : sizeOf x + sizeOf xs < n := by
          simp only [Json.arr.sizeOf_spec, List.cons.sizeOf_spec] at hs
          omega
        have := ihA x xs h1
        simp only [fuelVal, printVal, List.length_cons, List.length_append,
          List.length_singleton]
        omega
      | .obj [] => simp [fuelVal, printVal]
      | .obj ((k, v) :: xs) =>
        have h1 : sizeOf v + sizeOf xs < n := by
          simp only [Json.obj.sizeOf_spec, List.cons.sizeOf_spec,
            Prod.mk.sizeOf_spec] at hs
          omega
        have := ihO k v xs h1
        simp only [fuelVal, printVal, List.length_cons, List.length_append,
          List.length_singleton]
        omega
    · cases xs with
      | nil =>
        have h1 : sizeOf x < n := by
          simp only [List.nil.sizeOf_spec] at hs
          omega
        have := ihV x h1
        simp only [fuelArr, printItems]
        omega
      | cons y ys =>
        have h1 : sizeOf x < n := by
          simp only [List.cons.sizeOf_spec] at hs
          have := json_sizeOf_pos y
          omega
        have h2 : sizeOf y + sizeOf ys < n := by
          simp only [List.cons.sizeOf_spec] at hs
          have := json_sizeOf_pos x
          omega
        have hA := ihA y ys h2
        have hV := ihV x h1
        simp only [fuelArr, printItems, List.length_append, List.length_cons]
        omega
    · cases xs with
      | nil =>
        have h1 : sizeOf v < n := by
          simp only [List.nil.sizeOf_spec] at hs
          omega
        have := ihV v h1
        simp only [fuelObj, printMembers, List.length_cons, List.length_append]
        omega
      | cons kv2 xs2 =>
        obtain ⟨k2, v2⟩ := kv2
        have h1 : sizeOf v < n := by
          simp only [List.cons.sizeOf_spec, Prod.mk.sizeOf_spec] at hs
          omega
        have h2 : sizeOf v2 + sizeOf xs2 < n := by
          simp only [List.cons.sizeOf_spec, Prod.mk.sizeOf_spec] at hs
          have := json_sizeOf_pos v
          omega
        have hO := ihO k2 v2 xs2 h2
        have hV := ihV v h1
        simp only [fuelObj, printMembers, List.length_cons, List.length_append]
        omega

theorem fuelVal_le (j : Json) : fuelVal j ≤ (printVal j).length :=
  (fuel_le_aux (sizeOf j + 1)).1 j (by omega)

theorem jsonDecode_print {j : Json} (hp : jsonPrintable j = true) :
    jsonDecode (String.mk (printVal j)) = .ok j := by
  have hfuel : fuelVal j ≤ 2 * (String.mk (printVal j)).length + 8 := by
    have h1 := fuelVal_le j
    have h2 : (String.mk (printVal j)).length = (printVal j).length := rfl
    omega
  have hparse := (parse_print (2 * (String.mk (printVal j)).length + 8)).1 j [] hp hfuel
    (by intro c hc; simp at hc)
  rw [List.append_nil] at hparse
  unfold jsonDecode
  rw [show (String.mk (printVal j)).data = printVal j from rfl, hparse]
  rfl

theorem optBool_of_none {fields : List (String × Json)} {key : String} {r : Option Bool}
    (h : optField fields key asBool = .ok r) (hl : jsonLookup key fields = none) :
    r = none := by
  rw [optField_none asBool hl] at h
  exact (Except.ok.inj h).symm

theorem optBool_of_bool {fields : List (String × Json)} {key : String} {r : Option Bool}
    {t : Bool} (h : optField fields key asBool = .ok r)
    (hl : jsonLookup key fields = some (Json.bool t)) : r = some t := by
  rw [optField_some asBool hl] at h
  have h2 : (Except.ok (some t) : Except DeErr (Option Bool)) = .ok r := h
  exact (Except.ok.inj h2).symm

/-! ## Concrete documents and values used by the claims -/

/-- A bundle exercising every field of the model, built directly. -/
def sampleBundle : Bundle :=
  ⟨some [("help", ⟨some "prints help", false, true⟩)],
   some [("token", ⟨some "api token", some "TOKEN", some "/run/token", some true⟩)],
   some [("com.example.praxis", Json.obj [("x", Json.num 1)])],
   some [("schemaA", Json.obj [])],
   some "sample",
   some [("web", ⟨some "frontend", some "sha256:aa", "repo/web", some "oci", none,
     some ⟨some "amd64", some "linux"⟩, some 12345, some [("role", "ui")]⟩)],
   [⟨some "sha256:bb", "repo/invoke", some "oci", none, some 500, none⟩],
   some [],
   some "MIT",
   some [⟨some "o@example.com", "Olive", none⟩],
   "sample",
   some [("out1", ⟨some ["install"], "schemaA", none, some "/out"⟩)],
   some [("arg1", ⟨none, some "schemaA", none, ⟨some "FIRST", none⟩, some false⟩)],
   "1.0.0",
   ⟨1, 2, 3, "alpha.1", "build-5"⟩⟩

/-- The spec's minimal valid document, as a value tree. -/
def minimalDoc : Json :=
  Json.obj [("name", .str "aristotle"), ("invocationImages", .arr []),
    ("schemaVersion", .str "1.0.0"), ("version", .str "1.0.0")]

/-- The Bundle the minimal document parses to. -/
def minimalBundle : Bundle :=
  ⟨none, none, none, none, none, none, [], none, none, none,
   "aristotle", none, none, "1.0.0", ⟨1, 0, 0, "", ""⟩⟩

/-- The spec's version-rejection document, as JSON text. -/
def c3text : String :=
  "\x7b\"name\":\"aristotle\",\"invocationImages\":[],\"schemaVersion\":\"1.0.0\",\"version\":\"abc\"\x7d"

/-- A document whose credential and action omit every optional flag. -/
def c2doc : Json :=
  Json.obj [("name", .str "n"), ("invocationImages", .arr []),
    ("schemaVersion", .str "1.0.0"), ("version", .str "1.0.0"),
    ("credentials", Json.obj [("c", Json.obj [])]),
    ("actions", Json.obj [("help", Json.obj [])])]

/-- A document carrying a negative `size` on an invocation image. -/
def c9doc : Json :=
  Json.obj [("name", .str "n"),
    ("invocationImages", .arr [Json.obj [("image", .str "i"), ("size", .num (-5))]]),
    ("schemaVersion", .str "1.0.0"), ("version", .str "1.0.0")]

/-! ## The claims -/

/-- C1: for every well-formed directly constructed Bundle (the
well-formedness being exactly the invariants the Rust types carry:
sorted `BTreeMap` keys, `i64` ranges, crate-validated version, and
strings within the modelled writer's escape repertoire), rendering
it to JSON text with the serializer and re-parsing that text with
`from_str` yields the same Bundle in every field, absent
collections (`None`, serialized as `null`) included. -/
theorem C1_serialize_parse_roundtrip {b : Bundle} (h : b.wf = true)
    (hp : jsonPrintable (Bundle.toJson b) = true) :
    Bundle.from_str (Bundle.serialize b) = .ok b := by
  unfold Bundle.from_str Bundle.serialize
  rw [jsonDecode_print hp]
  simpa using bundle_rt h

/-- Witness for C1 at a bundle exercising every field, including the
empty-but-present keywords list and absent optional collections. -/
theorem C1_serialize_parse_roundtrip_witness :
    sampleBundle.wf = true ∧
      Bundle.from_str (Bundle.serialize sampleBundle) = .ok sampleBundle :=
  ⟨by decide, C1_serialize_parse_roundtrip (by decide)
    (by
      simp +decide [sampleBundle, Bundle.toJson, Image.toJson,
        InvocationImage.toJson, Maintainer.toJson, Platform.toJson,
        Credential.toJson, Destination.toJson, Parameter.toJson, Action.toJson,
        Output.toJson, versionToJson, mapToJson, strListToJson, optJson,
        jsonPrintable, listPrintable, membersPrintable, printableStr,
        printableChar]
      all_goals simp [semverPrint, semverPrintChars, natChars, digitChar]
      all_goals decide)⟩

/-- C2 counterexample: a document whose credential omits `required`
parses, but the credential's `required` field is `none`, not the
value `false` (`some false`): `required` is an `Option<bool>` in
the source, with no serde default. -/
theorem C2_counterexample :
    Bundle.ofJson c2doc
        = .ok ⟨some [("help", ⟨none, false, false⟩)],
            some [("c", ⟨none, none, none, none⟩)], none, none, none, none,
            [], none, none, none, "n", none, none, "1.0.0", ⟨1, 0, 0, "", ""⟩⟩ ∧
      (⟨none, none, none, none⟩ : Credential).required = none ∧
      ((none : Option Bool) ≠ some false) :=
  ⟨rfl, rfl, by decide⟩

/-- C2 amended: omitting `modifies`/`stateless` yields `false` and an
explicit boolean is preserved (`Action` has `#[serde(default)] bool`
fields); omitting `required` on a Parameter or Credential yields
`None` — documented as interpreted as false — while an explicit
boolean yields `Some` of it. -/
theorem C2_defaulting (fields : List (String × Json)) :
    (∀ a : Action, Action.ofJson (.obj fields) = .ok a →
      ((jsonLookup "modifies" fields = none ∧ a.modifies = false) ∨
          jsonLookup "modifies" fields = some (Json.bool a.modifies)) ∧
        ((jsonLookup "stateless" fields = none ∧ a.stateless = false) ∨
          jsonLookup "stateless" fields = some (Json.bool a.stateless))) ∧
    (∀ c : Credential, Credential.ofJson (.obj fields) = .ok c →
      (jsonLookup "required" fields = none → c.required = none) ∧
      ∀ t, jsonLookup "required" fields = some (Json.bool t) → c.required = some t) ∧
    (∀ p : Parameter, Parameter.ofJson (.obj fields) = .ok p →
      (jsonLookup "required" fields = none → p.required = none) ∧
      ∀ t, jsonLookup "required" fields = some (Json.bool t) → p.required = some t) := by
  refine ⟨fun a ha => ?_, fun c hc => ?_, fun p hp => ?_⟩
  · obtain ⟨_, hm, hs⟩ := action_ok_fields ha
    exact ⟨defBool_char hm, defBool_char hs⟩
  · have h4 := (credential_ok_fields hc).2.2.2
    exact ⟨fun hl => optBool_of_none h4 hl, fun t hl => optBool_of_bool h4 hl⟩
  · have h5 := (parameter_ok_fields hp).2.2.2.2
    exact ⟨fun hl => optBool_of_none h5 hl, fun t hl => optBool_of_bool h5 hl⟩

/-- Witness for the amended C2 at the empty wire object: both Action
booleans default to false, and an omitted `required` parses to none. -/
theorem C2_defaulting_witness :
    (((jsonLookup "modifies" ([] : List (String × Json)) = none ∧
        (⟨none, false, false⟩ : Action).modifies = false) ∨
      jsonLookup "modifies" ([] : List (String × Json))
        = some (Json.bool (⟨none, false, false⟩ : Action).modifies)) ∧
      (⟨none, none, none, none⟩ : Credential).required = none) :=
  ⟨((C2_defaulting []).1 ⟨none, false, false⟩ rfl).1,
   ((C2_defaulting []).2.1 ⟨none, none, none, none⟩ rfl).1 rfl⟩

/-- C3: a `version` whose string is not semver-shaped makes the parse
fail (the failure is the distinguished semver error, which only the
version field can raise, since it is the model's only semver-typed
field); whenever the parse succeeds the bundle's version is exactly
the semver parse of the wire string. -/
theorem C3_version_semver :
    (∀ fields s, jsonLookup "version" fields = some (Json.str s) →
      semverParse s = none → ∃ e, Bundle.ofJson (.obj fields) = .error e) ∧
    (∀ fields b s, Bundle.ofJson (.obj fields) = .ok b →
      jsonLookup "version" fields = some (Json.str s) →
      semverParse s = some b.version) ∧
    Bundle.from_str c3text = .error (.semverErr "abc") := by
  refine ⟨fun fields s hl hs => ?_, fun fields b s hres hl => ?_, rfl⟩
  · rcases hres : Bundle.ofJson (.obj fields) with e | b
    · exact ⟨e, rfl⟩
    · have h15 := (bundle_ok_fields hres).2.2.2.2.2.2.2.2.2.2.2.2.2.2
      obtain ⟨j, hj, hv⟩ := reqField_ok h15
      rw [hl] at hj
      have hjs := Option.some.inj hj
      subst hjs
      have := versionOfJson_str_ok hv
      rw [hs] at this
      exact absurd this (by simp)
  · have h15 := (bundle_ok_fields hres).2.2.2.2.2.2.2.2.2.2.2.2.2.2
    obtain ⟨j, hj, hv⟩ := reqField_ok h15
    rw [hl] at hj
    have hjs := Option.some.inj hj
    subst hjs
    exact versionOfJson_str_ok hv

/-- Witness for C3: the version-only document with `"abc"` fails, and
the minimal document's version is the semver parse of `"1.0.0"`. -/
theorem C3_version_semver_witness :
    (∃ e, Bundle.ofJson (.obj [("version", Json.str "abc")]) = .error e) ∧
      semverParse "1.0.0" = some minimalBundle.version :=
  ⟨C3_version_semver.1 [("version", Json.str "abc")] "abc" rfl rfl,
   C3_version_semver.2.1 [("name", .str "aristotle"), ("invocationImages", .arr []),
     ("schemaVersion", .str "1.0.0"), ("version", .str "1.0.0")] minimalBundle
     "1.0.0" rfl rfl⟩

/-- C4: parsing a Bundle from any string, the empty string and
truncated JSON included, always returns a value — a Bundle or a
reported error, never a crash: the boundary is a total function into
`Except`, and the named malformed inputs yield text-layer errors. -/
theorem C4_no_panic :
    (∀ s : String, (∃ b, Bundle.from_str s = .ok b) ∨
      (∃ e, Bundle.from_str s = .error e)) ∧
    Bundle.from_str "" = .error (.jsonText "eof while parsing a value") ∧
    Bundle.from_str "\x7bhello" = .error (.jsonText "expected object key") := by
  refine ⟨fun s => ?_, rfl, rfl⟩
  rcases h : Bundle.from_str s with e | b
  · exact Or.inr ⟨e, rfl⟩
  · exact Or.inl ⟨b, rfl⟩

/-- C5: a JSON object missing any of `name`, `version`,
`schemaVersion` or `invocationImages` fails to parse; an object
holding just those four, correctly typed (the image array may be
empty), parses with every optional field absent. -/
theorem C5_required_fields :
    (∀ fields, jsonLookup "name" fields = none →
      ∃ e, Bundle.ofJson (.obj fields) = .error e) ∧
    (∀ fields, jsonLookup "version" fields = none →
      ∃ e, Bundle.ofJson (.obj fields) = .error e) ∧
    (∀ fields, jsonLookup "schemaVersion" fields = none →
      ∃ e, Bundle.ofJson (.obj fields) = .error e) ∧
    (∀ fields, jsonLookup "invocationImages" fields = none →
      ∃ e, Bundle.ofJson (.obj fields) = .error e) ∧
    (∀ nm sv vs v, semverParse vs = some v →
      Bundle.ofJson (.obj [("name", .str nm), ("invocationImages", .arr []),
          ("schemaVersion", .str sv), ("version", .str vs)])
        = .ok ⟨none, none, none, none, none, none, [], none, none, none,
            nm, none, none, sv, v⟩) := by
  refine ⟨fun fields hl => ?_, fun fields hl => ?_, fun fields hl => ?_,
    fun fields hl => ?_, fun nm sv vs v hv => ?_⟩
  · rcases hres : Bundle.ofJson (.obj fields) with e | b
    · exact ⟨e, rfl⟩
    · obtain ⟨j, hj, _⟩ := reqField_ok (bundle_ok_fields hres).2.2.2.2.2.2.2.2.2.2.1
      rw [hl] at hj
      exact absurd hj (by simp)
  · rcases hres : Bundle.ofJson (.obj fields) with e | b
    · exact ⟨e, rfl⟩
    · obtain ⟨j, hj, _⟩ :=
        reqField_ok (bundle_ok_fields hres).2.2.2.2.2.2.2.2.2.2.2.2.2.2
      rw [hl] at hj
      exact absurd hj (by simp)
  · rcases hres : Bundle.ofJson (.obj fields) with e | b
    · exact ⟨e, rfl⟩
    · obtain ⟨j, hj, _⟩ :=
        reqField_ok (bundle_ok_fields hres).2.2.2.2.2.2.2.2.2.2.2.2.2.1
      rw [hl] at hj
      exact absurd hj (by simp)
  · rcases hres : Bundle.ofJson (.obj fields) with e | b
    · exact ⟨e, rfl⟩
    · obtain ⟨j, hj, _⟩ := reqField_ok (bundle_ok_fields hres).2.2.2.2.2.2.1
      rw [hl] at hj
      exact absurd hj (by simp)
  · simp only [Bundle.ofJson, optField, reqField, jsonLookup, String.reduceEq,
      reduceIte, asList, mapMExcept, asString, versionOfJson, hv, exBind_ok]
    rfl

/-- Witness for C5: the spec's minimal aristotle document parses to
exactly the minimal bundle, and the empty object fails. -/
theorem C5_required_fields_witness :
    Bundle.ofJson minimalDoc = .ok minimalBundle ∧
      (∃ e, Bundle.ofJson (.obj []) = .error e) :=
  ⟨C5_required_fields.2.2.2.2 "aristotle" "1.0.0" "1.0.0" ⟨1, 0, 0, "", ""⟩ rfl,
   C5_required_fields.1 [] rfl⟩

/-- C6: a failing read surfaces as `IoError` carrying the io failure,
a successful read hands the content to the JSON path, the two error
constructors are programmatically distinguishable, and every outcome
of `from_file` is a Bundle, an `IoError`, or a `SerdeJSONError`. -/
theorem C6_error_taxonomy :
    (∀ (fs : String → Except IoErr String) (path : String) (e : IoErr),
      fs path = .error e → Bundle.from_file fs path = .error (.IoError e)) ∧
    (∀ (fs : String → Except IoErr String) (path content : String),
      fs path = .ok content → Bundle.from_file fs path = Bundle.from_json content) ∧
    (∀ (e : IoErr) (d : DeErr),
      BundleParseError.IoError e ≠ BundleParseError.SerdeJSONError d) ∧
    (∀ (fs : String → Except IoErr String) (path : String),
      (∃ b, Bundle.from_file fs path = .ok b) ∨
        (∃ e, Bundle.from_file fs path = .error (.IoError e)) ∨
        (∃ e, Bundle.from_file fs path = .error (.SerdeJSONError e))) := by
  refine ⟨fun fs path e h => ?_, fun fs path content h => ?_,
    fun e d hh => BundleParseError.noConfusion hh, fun fs path => ?_⟩
  · simp only [Bundle.from_file, h]
  · simp only [Bundle.from_file, h]
  · rcases h : fs path with e | content
    · exact Or.inr (Or.inl ⟨e, by simp only [Bundle.from_file, h]⟩)
    · rcases h2 : Bundle.from_str content with e2 | b
      · refine Or.inr (Or.inr ⟨e2, ?_⟩)
        simp only [Bundle.from_file, h, Bundle.from_json, h2, Except.mapError]
      · refine Or.inl ⟨b, ?_⟩
        simp only [Bundle.from_file, h, Bundle.from_json, h2, Except.mapError]

/-- Witness for C6: a file system without the requested path yields
exactly the io error, wrapped. -/
theorem C6_error_taxonomy_witness :
    Bundle.from_file (fun _ => .error .notFound) "/missing/bundle.json"
      = .error (.IoError .notFound) :=
  C6_error_taxonomy.1 (fun _ => .error .notFound) "/missing/bundle.json"
    .notFound rfl

/-- The Bundle wire keys in emission order (alphabetical). -/
def bundleKeyList : List String := bundleWireKeys

/-- The Image wire keys in emission (declaration) order. -/
def imageKeyList : List String :=
  ["description", "contentDigest", "image", "imageType", "mediaType",
   "platform", "size", "labels"]

/-- The InvocationImage wire keys in emission (declaration) order. -/
def invocationImageKeyList : List String :=
  ["contentDigest", "image", "imageType", "mediaType", "size", "labels"]

/-- C7 counterexample: the serialized Image emits `description`
before `contentDigest` and `labels` last, so its wire keys are not
in alphabetical order. -/
theorem C7_counterexample :
    jsonKeys (Image.toJson ⟨none, none, "img", none, none, none, none, none⟩)
        = imageKeyList ∧
      strSortedB imageKeyList = false :=
  ⟨rfl, by decide⟩

/-- C7 amended: every entity serializes its fields in declaration
order with fixed wire keys; that order is alphabetical for Bundle,
Maintainer, Platform, Credential, Destination, Parameter, Action and
Output, but not for Image and InvocationImage (whose `contentDigest`
trails `description`, and whose `labels` comes last). -/
theorem C7_field_order :
    (∀ b : Bundle, jsonKeys (Bundle.toJson b) = bundleKeyList) ∧
      strSortedB bundleKeyList = true ∧
    (∀ i : Image, jsonKeys (Image.toJson i) = imageKeyList) ∧
      strSortedB imageKeyList = false ∧
    (∀ i : InvocationImage,
        jsonKeys (InvocationImage.toJson i) = invocationImageKeyList) ∧
      strSortedB invocationImageKeyList = false ∧
    (∀ m : Maintainer, jsonKeys (Maintainer.toJson m) = ["email", "name", "url"]) ∧
      strSortedB ["email", "name", "url"] = true ∧
    (∀ p : Platform, jsonKeys (Platform.toJson p) = ["arch", "os"]) ∧
      strSortedB ["arch", "os"] = true ∧
    (∀ c : Credential,
        jsonKeys (Credential.toJson c) = ["description", "env", "path", "required"]) ∧
      strSortedB ["description", "env", "path", "required"] = true ∧
    (∀ d : Destination, jsonKeys (Destination.toJson d) = ["env", "path"]) ∧
      strSortedB ["env", "path"] = true ∧
    (∀ p : Parameter, jsonKeys (Parameter.toJson p)
        = ["applyTo", "definition", "description", "destination", "required"]) ∧
      strSortedB ["applyTo", "definition", "description", "destination", "required"]
        = true ∧
    (∀ a : Action,
        jsonKeys (Action.toJson a) = ["description", "modifies", "stateless"]) ∧
      strSortedB ["description", "modifies", "stateless"] = true ∧
    (∀ o : Output,
        jsonKeys (Output.toJson o) = ["applyTo", "definition", "description", "path"]) ∧
      strSortedB ["applyTo", "definition", "description", "path"] = true :=
  ⟨fun _ => rfl, by decide, fun _ => rfl, by decide, fun _ => rfl, by decide,
   fun _ => rfl, by decide, fun _ => rfl, by decide, fun _ => rfl, by decide,
   fun _ => rfl, by decide, fun _ => rfl, by decide, fun _ => rfl, by decide,
   fun _ => rfl, by decide⟩

/-- C8: a document that parses, augmented with one unrecognized
top-level key bound to any value, still parses to the same Bundle —
the deserializer consults only its known wire keys. -/
theorem C8_unknown_key_ignored {fields : List (String × Json)} {k : String}
    {v : Json} {b : Bundle} (h : Bundle.ofJson (.obj fields) = .ok b)
    (hk : k ∉ bundleWireKeys) :
    Bundle.ofJson (.obj (fields ++ [(k, v)])) = .ok b := by
  rw [bundle_ofJson_append (fun key hkey he => hk (by rw [← he]; exact hkey))]
  exact h

/-- Witness for C8: the minimal document with an extra `praxis` key
still parses to the minimal bundle. -/
theorem C8_unknown_key_ignored_witness :
    Bundle.ofJson (.obj ([("name", Json.str "aristotle"),
        ("invocationImages", Json.arr []), ("schemaVersion", Json.str "1.0.0"),
        ("version", Json.str "1.0.0")] ++ [("praxis", Json.num 42)]))
      = .ok minimalBundle :=
  C8_unknown_key_ignored (by rfl) (by decide)

/-- C9 counterexample: a document with `size: -5` on its invocation
image parses successfully and preserves the negative value, so
parsing does not enforce non-negativity of `size`. -/
theorem C9_counterexample :
    Bundle.ofJson c9doc
        = .ok ⟨none, none, none, none, none, none,
            [⟨none, "i", none, none, some (-5), none⟩], none, none, none,
            "n", none, none, "1.0.0", ⟨1, 0, 0, "", ""⟩⟩ ∧
      ((-5 : Int) < 0) :=
  ⟨rfl, by decide⟩

/-- C9 amended: `size` is a signed 64-bit integer: the only bound a
successful parse guarantees is the `i64` range, and any in-range
number on the wire — negative included — is preserved verbatim. -/
theorem C9_size_range_only :
    (∀ fields i, Image.ofJson (.obj fields) = .ok i →
      ∀ n, i.size = some n → i64Min ≤ n ∧ n ≤ i64Max) ∧
    (∀ fields i, InvocationImage.ofJson (.obj fields) = .ok i →
      ∀ n, i.size = some n → i64Min ≤ n ∧ n ≤ i64Max) ∧
    (∀ fields i n, Image.ofJson (.obj fields) = .ok i →
      jsonLookup "size" fields = some (Json.num n) → i.size = some n) ∧
    (∀ fields i n, InvocationImage.ofJson (.obj fields) = .ok i →
      jsonLookup "size" fields = some (Json.num n) → i.size = some n) := by
  refine ⟨fun fields i hi => ?_, fun fields i hi => ?_,
    fun fields i n hi hl => ?_, fun fields i n hi hl => ?_⟩
  · exact optI64_char (image_ok_fields hi).2
  · exact optI64_char (invocation_image_ok_fields hi).2
  · exact optI64_num (image_ok_fields hi).2 hl
  · exact optI64_num (invocation_image_ok_fields hi).2 hl

/-- Witness for C9 amended: the negative-size invocation image parse
preserves `-5`, which lies inside the `i64` range. -/
theorem C9_size_range_only_witness :
    (⟨none, "i", none, none, some (-5), none⟩ : InvocationImage).size = some (-5) ∧
      i64Min ≤ (-5 : Int) ∧ (-5 : Int) ≤ i64Max :=
  ⟨C9_size_range_only.2.2.2 [("image", Json.str "i"), ("size", Json.num (-5))]
      ⟨none, "i", none, none, some (-5), none⟩ (-5) rfl rfl,
   C9_size_range_only.2.1 [("image", Json.str "i"), ("size", Json.num (-5))]
      ⟨none, "i", none, none, some (-5), none⟩ rfl (-5) rfl⟩

/-- C10: an omitted `required` parses to `None`, an explicit
`required: false` parses to `Some false`, the two are distinct
values, and both Parameter and Credential round-trip through
serialization, so the absent-versus-explicit-false distinction
survives parse/serialize. -/
theorem C10_required_absent_vs_false :
    (∀ fields c, Credential.ofJson (.obj fields) = .ok c →
      (jsonLookup "required" fields = none → c.required = none) ∧
      (jsonLookup "required" fields = some (Json.bool false) →
        c.required = some false)) ∧
    (∀ fields p, Parameter.ofJson (.obj fields) = .ok p →
      (jsonLookup "required" fields = none → p.required = none) ∧
      (jsonLookup "required" fields = some (Json.bool false) →
        p.required = some false)) ∧
    ((none : Option Bool) ≠ some false) ∧
    (∀ c : Credential, Credential.ofJson (Credential.toJson c) = .ok c) ∧
    (∀ p : Parameter, Parameter.ofJson (Parameter.toJson p) = .ok p) := by
  refine ⟨fun fields c hc => ?_, fun fields p hp => ?_, by simp,
    credential_rt, parameter_rt⟩
  · have h4 := (credential_ok_fields hc).2.2.2
    exact ⟨fun hl => optBool_of_none h4 hl, fun hl => optBool_of_bool h4 hl⟩
  · have h5 := (parameter_ok_fields hp).2.2.2.2
    exact ⟨fun hl => optBool_of_none h5 hl, fun hl => optBool_of_bool h5 hl⟩

/-- Witness for C10: the empty credential object yields
`required = none`, and a credential carrying `Some false` round-trips
unchanged. -/
theorem C10_required_absent_vs_false_witness :
    (⟨none, none, none, none⟩ : Credential).required = none ∧
      Credential.ofJson (Credential.toJson ⟨none, some "E", none, some false⟩)
        = .ok ⟨none, some "E", none, some false⟩ :=
  ⟨(C10_required_absent_vs_false.1 [] ⟨none, none, none, none⟩ rfl).1 rfl,
   C10_required_absent_vs_false.2.2.2.1 ⟨none, some "E", none, some false⟩⟩

end Cnab
